import Mathlib

/-!
Verification development for the numu expression core: a shallow embedding of
the AST model and algorithms (src/core/ast.cpp, include/numu/core/ast.h), the
tree-walking evaluator (src/core/eval.cpp) and the Pratt parser, together with
theorems about their behaviour.

Doubles are modelled by the type `D` below: exact rationals extended with the
IEEE-754 special values `inf`, `neginf` and `nan`.  Finite double arithmetic is
modelled as exact rational arithmetic (rounding is not modelled; every concrete
input used below is exactly representable), and there is no signed zero.
Real-valued transcendental library functions have no exact rational model; they
are represented by fixed placeholder functions whose values at nonzero
arguments are never relied upon, only their behaviour at exact special points
(0, infinities, nan) and the fact that the same function object is shared
between the evaluator and the constant folder.
-/

namespace Numu

/-- Model of the C++ `double`: a rational for the finite values plus the three
IEEE-754 special values. -/
inductive D where
  | fin (q : ℚ)
  | inf
  | neginf
  | nan
deriving DecidableEq, Repr

/-- IEEE equality `==` on doubles: `nan` compares unequal to everything,
including itself. -/
def deq : D → D → Bool
  | .nan, _ => false
  | _, .nan => false
  | .fin a, .fin b => decide (a = b)
  | .inf, .inf => true
  | .neginf, .neginf => true
  | _, _ => false

/-- IEEE strict less-than on doubles; any comparison with `nan` is false. -/
def dlt : D → D → Bool
  | .nan, _ => false
  | _, .nan => false
  | .fin a, .fin b => decide (a < b)
  | .neginf, .neginf => false
  | .neginf, _ => true
  | _, .inf => true
  | _, _ => false

/-- IEEE less-or-equal on doubles; any comparison with `nan` is false. -/
def dle : D → D → Bool
  | .nan, _ => false
  | _, .nan => false
  | .fin a, .fin b => decide (a ≤ b)
  | .neginf, _ => true
  | _, .inf => true
  | _, _ => false

/-- IEEE negation. -/
def dneg : D → D
  | .fin a => .fin (-a)
  | .inf => .neginf
  | .neginf => .inf
  | .nan => .nan

/-- Model of `std::abs` on doubles. -/
def dabs : D → D
  | .fin a => .fin |a|
  | .inf => .inf
  | .neginf => .inf
  | .nan => .nan

/-- IEEE addition. -/
def dadd : D → D → D
  | .nan, _ => .nan
  | _, .nan => .nan
  | .inf, .neginf => .nan
  | .neginf, .inf => .nan
  | .inf, _ => .inf
  | _, .inf => .inf
  | .neginf, _ => .neginf
  | _, .neginf => .neginf
  | .fin a, .fin b => .fin (a + b)

/-- IEEE subtraction, `a - b = a + (-b)`. -/
def dsub (a b : D) : D := dadd a (dneg b)

/-- IEEE multiplication; `inf * 0` is `nan`. -/
def dmul : D → D → D
  | .nan, _ => .nan
  | _, .nan => .nan
  | .inf, .inf => .inf
  | .inf, .neginf => .neginf
  | .neginf, .inf => .neginf
  | .neginf, .neginf => .inf
  | .inf, .fin b => if b = 0 then .nan else if 0 < b then .inf else .neginf
  | .fin a, .inf => if a = 0 then .nan else if 0 < a then .inf else .neginf
  | .neginf, .fin b => if b = 0 then .nan else if 0 < b then .neginf else .inf
  | .fin a, .neginf => if a = 0 then .nan else if 0 < a then .neginf else .inf
  | .fin a, .fin b => .fin (a * b)

/-- IEEE division; division of a nonzero finite value by zero yields a signed
infinity and `0/0` yields `nan` (signed zero is not modelled, so the sign of a
zero divisor is always positive). -/
def ddiv : D → D → D
  | .nan, _ => .nan
  | _, .nan => .nan
  | .inf, .inf => .nan
  | .inf, .neginf => .nan
  | .neginf, .inf => .nan
  | .neginf, .neginf => .nan
  | .fin _, .inf => .fin 0
  | .fin _, .neginf => .fin 0
  | .inf, .fin _ => .inf
  | .neginf, .fin _ => .neginf
  | .fin a, .fin b =>
      if b = 0 then (if a = 0 then .nan else if 0 < a then .inf else .neginf)
      else .fin (a / b)

/-- Truncation of a rational toward zero, as C float-to-int conversion does. -/
def ratTrunc (q : ℚ) : ℤ := if 0 ≤ q then ⌊q⌋ else ⌈q⌉

/-- Model of `std::fmod`: the remainder of truncating division; exact on
finite rationals.  `fmod(x, 0)` and `fmod(±inf, y)` are `nan`. -/
def dmod : D → D → D
  | .nan, _ => .nan
  | _, .nan => .nan
  | .inf, _ => .nan
  | .neginf, _ => .nan
  | .fin a, .inf => .fin a
  | .fin a, .neginf => .fin a
  | .fin a, .fin b => if b = 0 then .nan else .fin (a - b * (ratTrunc (a / b) : ℚ))

/-- Placeholder for the value of `std::pow` at a non-integer exponent; the
real value is irrational in general and no stated property depends on it. -/
def powApproxQ (_ _ : ℚ) : ℚ := 0

/-- Model of `std::pow`.  Integer exponents of finite bases are exact; the
IEEE special cases `pow(x, 0) = 1` and `pow(1, y) = 1` hold even for `nan`
arguments; other special-value combinations are modelled coarsely (the sign of
an infinite result for negative bases is not tracked). -/
def dpow (x y : D) : D :=
  match y with
  | .fin e =>
      if e = 0 then .fin 1
      else
        match x with
        | .nan => .nan
        | .inf => if 0 < e then .inf else .fin 0
        | .neginf => if 0 < e then .inf else .fin 0
        | .fin a =>
            if a = 1 then .fin 1
            else if e.den = 1 then
              if 0 < e.num then .fin (a ^ e.num.toNat)
              else if a = 0 then .inf
              else .fin ((a ^ (-e.num).toNat)⁻¹)
            else if a < 0 then .nan
            else .fin (powApproxQ a e)
  | .inf =>
      match x with
      | .nan => .nan
      | .fin a => if a = 1 then .fin 1 else if -1 < a ∧ a < 1 then .fin 0 else .inf
      | _ => .inf
  | .neginf =>
      match x with
      | .nan => .nan
      | .fin a => if a = 1 then .fin 1 else if -1 < a ∧ a < 1 then .inf else .fin 0
      | _ => .fin 0
  | .nan =>
      match x with
      | .fin a => if a = 1 then .fin 1 else .nan
      | _ => .nan

/-- Placeholder for the (irrational) value of `std::sin` at a nonzero finite
argument; no stated property depends on it. -/
def sinApproxQ (_ : ℚ) : ℚ := 0

/-- Placeholder for `std::cos` at finite arguments; unused by any property. -/
def cosApproxQ (_ : ℚ) : ℚ := 0

/-- Placeholder for `std::tan` at finite arguments; unused by any property. -/
def tanApproxQ (_ : ℚ) : ℚ := 0

/-- Placeholder for `std::exp` at nonzero finite arguments. -/
def expApproxQ (_ : ℚ) : ℚ := 0

/-- Placeholder for `std::log` at finite arguments other than 0 and 1. -/
def logApproxQ (_ : ℚ) : ℚ := 0

/-- Placeholder for `std::sqrt` at finite arguments that are not exact
squares of interest; only `sqrt 0 = 0` is relied upon. -/
def sqrtApproxQ (_ : ℚ) : ℚ := 0

/-- Model of `std::sin`. -/
def msin : D → D
  | .fin q => .fin (sinApproxQ q)
  | _ => .nan

/-- Model of `std::cos`. -/
def mcos : D → D
  | .fin q => .fin (cosApproxQ q)
  | _ => .nan

/-- Model of `std::tan`. -/
def mtan : D → D
  | .fin q => .fin (tanApproxQ q)
  | _ => .nan

/-- Model of `std::exp`: `exp(-inf) = 0`, `exp(inf) = inf`. -/
def mexp : D → D
  | .fin q => .fin (expApproxQ q)
  | .inf => .inf
  | .neginf => .fin 0
  | .nan => .nan

/-- Model of `std::log`: `log(0) = -inf`, `log` of a negative value is `nan`,
`log(inf) = inf`. -/
def mlog : D → D
  | .fin q => if q < 0 then .nan else if q = 0 then .neginf else .fin (logApproxQ q)
  | .inf => .inf
  | .neginf => .nan
  | .nan => .nan

/-- Model of `std::sqrt`: `sqrt` of a negative value is `nan`, `sqrt 0 = 0`. -/
def msqrt : D → D
  | .fin q => if q < 0 then .nan else if q = 0 then .fin 0 else .fin (sqrtApproxQ q)
  | .inf => .inf
  | .neginf => .nan
  | .nan => .nan

/-! ## AST model (include/numu/core/ast.h) -/

/-- The `BinaryOp` enum of ast.h, in declaration order. -/
inductive BinaryOp where
  | ADD | SUB | MUL | DIV | MOD | POW
  | EQ | NEQ | LT | LEQ | GT | GEQ
  | AND | OR
deriving DecidableEq, Repr

/-- The `UnaryOp` enum of ast.h, in declaration order. -/
inductive UnaryOp where
  | NEGATE | NOT
  | SIN | COS | TAN | ASIN | ACOS | ATAN
  | EXP | LOG | SQRT
  | TRANSPOSE | DETERMINANT | INVERSE
deriving DecidableEq, Repr

/-- The `NodeType` enum of ast.h, in declaration order. -/
inductive NodeTy where
  | NUMBER | BOOLEAN | STRING | VARIABLE | BINARY_OP | UNARY_OP | FUNCTION
  | MATRIX | TENSOR | ASSIGNMENT | BLOCK | IF | WHILE | FOR | RETURN
deriving DecidableEq, Repr

/-- The closed tagged-variant AST node type of ast.h.  Children are exclusively
owned and the tree is acyclic, so child pointers are modelled as inline
values; the documented-optional children (else branch, return value) are
`Option`s. -/
inductive Node where
  | number (value : D)
  | boolean (value : Bool)
  | string (value : String)
  | var (name : String)
  | binaryOp (op : BinaryOp) (left right : Node)
  | unaryOp (op : UnaryOp) (operand : Node)
  | function (name : String) (args : List Node)
  | matrix (elements : List (List Node))
  | tensor (dims : List Nat) (values : List Node)
  | assignment (name : String) (value : Node)
  | block (statements : List Node)
  | ifStmt (condition thenBranch : Node) (elseBranch : Option Node)
  | whileStmt (condition body : Node)
  | forStmt (initializer condition increment body : Node)
  | returnStmt (value : Option Node)

/-- The `type` tag of a node. -/
def typeOf : Node → NodeTy
  | .number _ => .NUMBER
  | .boolean _ => .BOOLEAN
  | .string _ => .STRING
  | .var _ => .VARIABLE
  | .binaryOp _ _ _ => .BINARY_OP
  | .unaryOp _ _ => .UNARY_OP
  | .function _ _ => .FUNCTION
  | .matrix _ => .MATRIX
  | .tensor _ _ => .TENSOR
  | .assignment _ _ => .ASSIGNMENT
  | .block _ => .BLOCK
  | .ifStmt _ _ _ => .IF
  | .whileStmt _ _ => .WHILE
  | .forStmt _ _ _ _ => .FOR
  | .returnStmt _ => .RETURN

/-- `static_cast<size_t>` of a `NodeType` value: its declaration index. -/
def tyIdx : NodeTy → Nat
  | .NUMBER => 0 | .BOOLEAN => 1 | .STRING => 2 | .VARIABLE => 3
  | .BINARY_OP => 4 | .UNARY_OP => 5 | .FUNCTION => 6 | .MATRIX => 7
  | .TENSOR => 8 | .ASSIGNMENT => 9 | .BLOCK => 10 | .IF => 11
  | .WHILE => 12 | .FOR => 13 | .RETURN => 14

/-- `static_cast<size_t>` of a `BinaryOp` value. -/
def binIdx : BinaryOp → Nat
  | .ADD => 0 | .SUB => 1 | .MUL => 2 | .DIV => 3 | .MOD => 4 | .POW => 5
  | .EQ => 6 | .NEQ => 7 | .LT => 8 | .LEQ => 9 | .GT => 10 | .GEQ => 11
  | .AND => 12 | .OR => 13

/-- `static_cast<size_t>` of a `UnaryOp` value. -/
def unIdx : UnaryOp → Nat
  | .NEGATE => 0 | .NOT => 1 | .SIN => 2 | .COS => 3 | .TAN => 4
  | .ASIN => 5 | .ACOS => 6 | .ATAN => 7 | .EXP => 8 | .LOG => 9
  | .SQRT => 10 | .TRANSPOSE => 11 | .DETERMINANT => 12 | .INVERSE => 13

mutual

/-- Number of nodes in a tree (counting the node itself and every descendant,
including the children of statement-variant nodes). -/
def size : Node → Nat
  | .number _ => 1
  | .boolean _ => 1
  | .string _ => 1
  | .var _ => 1
  | .binaryOp _ l r => 1 + size l + size r
  | .unaryOp _ x => 1 + size x
  | .function _ args => 1 + sizeList args
  | .matrix rows => 1 + sizeRows rows
  | .tensor _ vals => 1 + sizeList vals
  | .assignment _ v => 1 + size v
  | .block stmts => 1 + sizeList stmts
  | .ifStmt c t e => 1 + size c + size t + sizeOpt e
  | .whileStmt c b => 1 + size c + size b
  | .forStmt i c inc b => 1 + size i + size c + size inc + size b
  | .returnStmt v => 1 + sizeOpt v

def sizeList : List Node → Nat
  | [] => 0
  | x :: xs => size x + sizeList xs

def sizeRows : List (List Node) → Nat
  | [] => 0
  | r :: rs => sizeList r + sizeRows rs

def sizeOpt : Option Node → Nat
  | none => 0
  | some n => size n

end

/-! ## AST algorithms (src/core/ast.cpp) -/

mutual

/-- The `clone` function of ast.cpp: deep copy via the node factories; the
`default` arm of its switch throws `Unknown node type in clone` for every
variant other than the seven it handles. -/
def clone : Node → Except String Node
  | .number v => .ok (.number v)
  | .var n => .ok (.var n)
  | .binaryOp op l r => do
      let cl ← clone l
      let cr ← clone r
      .ok (.binaryOp op cl cr)
  | .unaryOp op x => do
      let cx ← clone x
      .ok (.unaryOp op cx)
  | .function n args => do
      let cargs ← cloneList args
      .ok (.function n cargs)
  | .matrix rows => do
      let crows ← cloneRows rows
      .ok (.matrix crows)
  | .tensor dims vals => do
      let cvals ← cloneList vals
      .ok (.tensor dims cvals)
  | _ => .error "Unknown node type in clone"

/-- Element-wise clone of an argument/value vector, in order. -/
def cloneList : List Node → Except String (List Node)
  | [] => .ok []
  | x :: xs => do
      let cx ← clone x
      let cxs ← cloneList xs
      .ok (cx :: cxs)

/-- Row-wise clone of a matrix element table, in order. -/
def cloneRows : List (List Node) → Except String (List (List Node))
  | [] => .ok []
  | r :: rs => do
      let cr ← cloneList r
      let crs ← cloneRows rs
      .ok (cr :: crs)

end

/-- The null-pointer behaviour of `clone`: `clone(nullptr)` returns `nullptr`
without entering the switch. -/
def cloneOpt : Option Node → Except String (Option Node)
  | none => .ok none
  | some n => do
      let c ← clone n
      .ok (some c)

mutual

/-- Allocation shadow of `clone`: every handled return path of `clone` ends in
a `NodePool::create` call, which appends a fresh node to the pool.  This
function tracks only the pool counter: given the number `p` of nodes already
in the pool it returns the index the root of the copy is created at, together
with the pool counter afterwards.  Children are created before their parent,
exactly in the order the source performs the `create` calls; unhandled
variants throw before allocating anything. -/
def cloneAddr : Node → Nat → Nat × Nat
  | .number _, p => (p, p + 1)
  | .var _, p => (p, p + 1)
  | .binaryOp _ l r, p =>
      let p1 := (cloneAddr l p).2
      let p2 := (cloneAddr r p1).2
      (p2, p2 + 1)
  | .unaryOp _ x, p =>
      let p1 := (cloneAddr x p).2
      (p1, p1 + 1)
  | .function _ args, p =>
      let p1 := cloneAddrList args p
      (p1, p1 + 1)
  | .matrix rows, p =>
      let p1 := cloneAddrRows rows p
      (p1, p1 + 1)
  | .tensor _ vals, p =>
      let p1 := cloneAddrList vals p
      (p1, p1 + 1)
  | _, p => (p, p)

/-- Pool counter after cloning each element of a vector in order. -/
def cloneAddrList : List Node → Nat → Nat
  | [], p => p
  | x :: xs, p => cloneAddrList xs (cloneAddr x p).2

/-- Pool counter after cloning each matrix row in order. -/
def cloneAddrRows : List (List Node) → Nat → Nat
  | [], p => p
  | r :: rs, p => cloneAddrRows rs (cloneAddrList r p)

end

mutual

/-- The `equals` function of ast.cpp: structural equality.  A type-tag
mismatch returns false before the switch; the `default` arm throws
`Unknown node type in equals` for the eight unhandled variants.  The
pointer-identity fast path `a == b` of the source is not represented: in a
value model two identical objects are the same value, and the fast path is
observable only for unhandled variants (where the source returns true instead
of throwing). -/
def equals (a b : Node) : Except String Bool :=
  if typeOf a ≠ typeOf b then .ok false
  else match a, b with
  | .number x, .number y => .ok (deq x y)
  | .var x, .var y => .ok (x == y)
  | .binaryOp o1 l1 r1, .binaryOp o2 l2 r2 =>
      if o1 ≠ o2 then .ok false
      else do
        let bl ← equals l1 l2
        if bl then equals r1 r2 else .ok false
  | .unaryOp o1 x1, .unaryOp o2 x2 =>
      if o1 ≠ o2 then .ok false else equals x1 x2
  | .function n1 a1, .function n2 a2 =>
      if n1 ≠ n2 ∨ a1.length ≠ a2.length then .ok false else equalsList a1 a2
  | .matrix e1, .matrix e2 =>
      if e1.length ≠ e2.length then .ok false else equalsRows e1 e2
  | .tensor d1 v1, .tensor d2 v2 =>
      if d1 ≠ d2 ∨ v1.length ≠ v2.length then .ok false else equalsList v1 v2
  | _, _ => .error "Unknown node type in equals"

/-- Element-wise `equals` over two vectors of equal length, with the source
early exit of the loop on the first false. -/
def equalsList : List Node → List Node → Except String Bool
  | [], [] => .ok true
  | x :: xs, y :: ys => do
      let b ← equals x y
      if b then equalsList xs ys else .ok false
  | _, _ => .ok false

/-- Row-wise `equals` over a matrix element table: each row pair is compared
by length first, then element-wise. -/
def equalsRows : List (List Node) → List (List Node) → Except String Bool
  | [], [] => .ok true
  | r :: rs, s :: ss =>
      if r.length ≠ s.length then .ok false
      else do
        let b ← equalsList r s
        if b then equalsRows rs ss else .ok false
  | _, _ => .ok false

end

/-- Wrap a machine computation to `size_t` width. -/
def wrap64 (n : Nat) : Nat := n % 18446744073709551616

/-- The fixed multiplicative constant `0x100000001B3` of `hash`. -/
def hprime : Nat := 0x100000001B3

/-- Model of the implementation-defined `std::hash<double>`; only that it is a
function of the double value is relied upon. -/
def hashD : D → Nat
  | .nan => 0
  | .inf => 1
  | .neginf => 2
  | .fin q => wrap64 (Nat.pair q.num.natAbs q.den * 4 + (if q.num < 0 then 7 else 3))

/-- Model of the implementation-defined `std::hash<std::string>`. -/
def hashStr (s : String) : Nat := wrap64 (s.foldl (fun h c => wrap64 (h * 31 + c.toNat)) 7)

/-- Model of `std::hash<size_t>` (identity on the value). -/
def hashSz (n : Nat) : Nat := wrap64 n

mutual

/-- The `hash` function of ast.cpp: starts from the node-type index, then
combines per-variant data and child hashes with xor, `+ hprime` and
`* hprime` in `size_t` arithmetic.  The `default` arm throws
`Unknown node type in hash`. -/
def hash : Node → Except String Nat
  | .number v => .ok (Nat.xor (tyIdx .NUMBER) (wrap64 (hashD v + hprime)))
  | .var n => .ok (Nat.xor (tyIdx .VARIABLE) (wrap64 (hashStr n + hprime)))
  | .binaryOp op l r => do
      let hl ← hash l
      let hr ← hash r
      .ok (Nat.xor (Nat.xor (Nat.xor (tyIdx .BINARY_OP) (wrap64 (binIdx op + hprime)))
            (wrap64 (hl * hprime))) (wrap64 (hr * hprime)))
  | .unaryOp op x => do
      let hv ← hash x
      .ok (Nat.xor (Nat.xor (tyIdx .UNARY_OP) (wrap64 (unIdx op + hprime)))
            (wrap64 (hv * hprime)))
  | .function n args =>
      hashFoldList (Nat.xor (tyIdx .FUNCTION) (wrap64 (hashStr n + hprime))) args
  | .matrix rows => hashFoldRows (tyIdx .MATRIX) rows
  | .tensor dims vals =>
      hashFoldList (dims.foldl (fun h d => Nat.xor h (wrap64 (hashSz d + hprime)))
        (tyIdx .TENSOR)) vals
  | _ => .error "Unknown node type in hash"

/-- The accumulator loop `h ^= hash(child) * prime` over a vector of
children, left to right. -/
def hashFoldList (h : Nat) : List Node → Except String Nat
  | [] => .ok h
  | x :: xs => do
      let hv ← hash x
      hashFoldList (Nat.xor h (wrap64 (hv * hprime))) xs

/-- The accumulator loop over matrix elements in row-major order. -/
def hashFoldRows (h : Nat) : List (List Node) → Except String Nat
  | [] => .ok h
  | r :: rs => do
      let h2 ← hashFoldList h r
      hashFoldRows h2 rs

end

/-- The children a node pushes in `traverse`, in the order they are popped
from the explicit stack (the source pushes them in reverse so that they pop
left to right).  The `default` arm of the switch pushes nothing, so the
children of the eight unhandled variants are absent. -/
def childrenOf : Node → List Node
  | .binaryOp _ l r => [l, r]
  | .unaryOp _ x => [x]
  | .function _ args => args
  | .matrix rows => rows.flatten
  | .tensor _ vals => vals
  | _ => []

theorem sizeList_append (l1 l2 : List Node) :
    sizeList (l1 ++ l2) = sizeList l1 + sizeList l2 := by
  induction l1 with
  | nil => simp [sizeList]
  | cons x xs ih => simp [sizeList, ih]; ring

theorem sizeList_flatten (rows : List (List Node)) :
    sizeList rows.flatten = sizeRows rows := by
  induction rows with
  | nil => simp [sizeList, sizeRows]
  | cons r rs ih => simp [List.flatten, sizeRows, sizeList_append, ih]

theorem sizeList_childrenOf_lt (n : Node) : sizeList (childrenOf n) < size n := by
  cases n <;> simp [childrenOf, size, sizeList, sizeList_flatten] <;> omega

theorem traverseStackDec (n : Node) (rest : List Node) :
    sizeList (childrenOf n ++ rest) < sizeList (n :: rest) := by
  simp only [sizeList, sizeList_append]
  have := sizeList_childrenOf_lt n
  omega

/-- The explicit-stack loop of `traverse`: pops the top node, visits it,
pushes its children so that they pop in left-to-right order, and repeats
until the stack is empty.  The returned list is the visit order. -/
def traverseStack (stack : List Node) : List Node :=
  match stack with
  | [] => []
  | n :: rest => n :: traverseStack (childrenOf n ++ rest)
termination_by sizeList stack
decreasing_by
  exact traverseStackDec _ _

/-- The `traverse` function of ast.cpp, as the list of nodes in visit order:
it seeds the stack with the root and runs the stack loop. -/
def traverse (n : Node) : List Node := traverseStack [n]

mutual

/-- Recursive-descent pre-order of a tree: each node before its children,
children left to right, descending through every variant (including the
statement variants that `traverse` does not descend into). -/
def preorder : Node → List Node
  | .number v => [.number v]
  | .boolean b => [.boolean b]
  | .string s => [.string s]
  | .var n => [.var n]
  | .binaryOp op l r => .binaryOp op l r :: (preorder l ++ preorder r)
  | .unaryOp op x => .unaryOp op x :: preorder x
  | .function n args => .function n args :: preorderList args
  | .matrix rows => .matrix rows :: preorderRows rows
  | .tensor dims vals => .tensor dims vals :: preorderList vals
  | .assignment n v => .assignment n v :: preorder v
  | .block stmts => .block stmts :: preorderList stmts
  | .ifStmt c t e => .ifStmt c t e :: (preorder c ++ preorder t ++ preorderOpt e)
  | .whileStmt c b => .whileStmt c b :: (preorder c ++ preorder b)
  | .forStmt i c inc b => .forStmt i c inc b :: (preorder i ++ preorder c ++ preorder inc ++ preorder b)
  | .returnStmt v => .returnStmt v :: preorderOpt v

/-- Pre-orders of a list of trees, concatenated in order. -/
def preorderList : List Node → List Node
  | [] => []
  | x :: xs => preorder x ++ preorderList xs

/-- Pre-orders of a matrix element table, row-major. -/
def preorderRows : List (List Node) → List Node
  | [] => []
  | r :: rs => preorderList r ++ preorderRows rs

/-- Pre-order of an optional child. -/
def preorderOpt : Option Node → List Node
  | none => []
  | some n => preorder n

end

/-- The constant-folding switch of `simplify` for a `BinaryOp` with two
`Number` children: `result` starts at 0 and the `+ - * / ^` arms overwrite
it, so every other operator folds to 0 via the `default: break` arm. -/
def foldBinary (op : BinaryOp) (l r : D) : D :=
  match op with
  | .ADD => dadd l r
  | .SUB => dsub l r
  | .MUL => dmul l r
  | .DIV => ddiv l r
  | .POW => dpow l r
  | _ => .fin 0

/-- The constant-folding switch of `simplify` for a `UnaryOp` with a `Number`
child: negate/sin/cos/tan/exp/log/sqrt fold via the library functions with no
domain guard; every other operator folds to 0 via `default: break`. -/
def foldUnary (op : UnaryOp) (v : D) : D :=
  match op with
  | .NEGATE => dneg v
  | .SIN => msin v
  | .COS => mcos v
  | .TAN => mtan v
  | .EXP => mexp v
  | .LOG => mlog v
  | .SQRT => msqrt v
  | _ => .fin 0

/-- The `simplify` function of ast.cpp: simplifies the children of a
`BinaryOp`/`UnaryOp` first, folds when the simplified children are `Number`
literals, and hands every other variant to `clone` unchanged. -/
def simplify : Node → Except String Node
  | .binaryOp op l r => do
      let sl ← simplify l
      let sr ← simplify r
      match sl, sr with
      | .number lv, .number rv => .ok (.number (foldBinary op lv rv))
      | _, _ => .ok (.binaryOp op sl sr)
  | .unaryOp op x => do
      let sx ← simplify x
      match sx with
      | .number v => .ok (.number (foldUnary op v))
      | _ => .ok (.unaryOp op sx)
  | n => clone n

mutual

/-- A tree is built only from the seven variants the ast.cpp algorithms
handle: Number, Variable, BinaryOp, UnaryOp, Function, Matrix, Tensor. -/
def coreOnly : Node → Bool
  | .number _ => true
  | .var _ => true
  | .binaryOp _ l r => coreOnly l && coreOnly r
  | .unaryOp _ x => coreOnly x
  | .function _ args => coreOnlyList args
  | .matrix rows => coreOnlyRows rows
  | .tensor _ vals => coreOnlyList vals
  | _ => false

/-- `coreOnly` for every member of a vector. -/
def coreOnlyList : List Node → Bool
  | [] => true
  | x :: xs => coreOnly x && coreOnlyList xs

/-- `coreOnly` for every element of a matrix table. -/
def coreOnlyRows : List (List Node) → Bool
  | [] => true
  | r :: rs => coreOnlyList r && coreOnlyRows rs

end

mutual

/-- A tree contains no statement-variant node (Assignment, Block, If, While,
For, Return): only the value variants, whose children `traverse` pushes, plus
the childless Boolean and String leaves. -/
def valueOnly : Node → Bool
  | .number _ => true
  | .boolean _ => true
  | .string _ => true
  | .var _ => true
  | .binaryOp _ l r => valueOnly l && valueOnly r
  | .unaryOp _ x => valueOnly x
  | .function _ args => valueOnlyList args
  | .matrix rows => valueOnlyRows rows
  | .tensor _ vals => valueOnlyList vals
  | _ => false

/-- `valueOnly` for every member of a vector. -/
def valueOnlyList : List Node → Bool
  | [] => true
  | x :: xs => valueOnly x && valueOnlyList xs

/-- `valueOnly` for every element of a matrix table. -/
def valueOnlyRows : List (List Node) → Bool
  | [] => true
  | r :: rs => valueOnlyList r && valueOnlyRows rs

end

/-! ## Evaluator (src/core/eval.cpp) -/

/-- A registered function implementation: `std::function<double(const
std::vector<double>&)>`, which may throw an `EvaluationError`. -/
def FnImpl : Type := List D → Except String D

/-- The `EvalContext` of eval.cpp: variable bindings and the function table.
Maps are association lists where the leftmost binding for a name wins. -/
structure EvalContext where
  vars : List (String × D)
  functions : List (String × FnImpl)

/-- `ctx.variables.find(name)`. -/
def lookupVar (c : EvalContext) (n : String) : Option D :=
  (c.vars.find? (fun p => p.1 == n)).map (fun p => p.2)

/-- `ctx.functions.find(name)`. -/
def lookupFn (c : EvalContext) (n : String) : Option FnImpl :=
  (c.functions.find? (fun p => p.1 == n)).map (fun p => p.2)

/-- The `validate_args` helper of eval.cpp.  Both arities are `size_t`
(modelled as `Nat`); there is no special case for a variadic marker. -/
def validateArgs (name : String) (expected actual : Nat) : Except String Unit :=
  if expected ≠ actual then
    .error ("Function " ++ name ++ " expects " ++ toString expected ++
      " arguments, got " ++ toString actual)
  else .ok ()

/-- The `eval_binary_op` switch of eval.cpp: `+ - * ^` unconditional, `/` and
`%` guarded against an exactly-zero right operand, every remaining operator
(comparisons, logical) falls to `default` and throws. -/
def evalBinaryOp (op : BinaryOp) (l r : D) : Except String D :=
  match op with
  | .ADD => .ok (dadd l r)
  | .SUB => .ok (dsub l r)
  | .MUL => .ok (dmul l r)
  | .DIV => if deq r (.fin 0) then .error "Division by zero" else .ok (ddiv l r)
  | .POW => .ok (dpow l r)
  | .MOD => if deq r (.fin 0) then .error "Modulo by zero" else .ok (dmod l r)
  | _ => .error "Unknown binary operator"

/-- The `eval_unary_op` switch of eval.cpp: negate and sin/cos/tan/exp
unconditional, `log` guarded for non-positive and `sqrt` for negative
operands, every remaining operator throws via `default`. -/
def evalUnaryOp (op : UnaryOp) (v : D) : Except String D :=
  match op with
  | .NEGATE => .ok (dneg v)
  | .SIN => .ok (msin v)
  | .COS => .ok (mcos v)
  | .TAN => .ok (mtan v)
  | .EXP => .ok (mexp v)
  | .LOG => if dle v (.fin 0) then .error "Logarithm of non-positive number" else .ok (mlog v)
  | .SQRT => if dlt v (.fin 0) then .error "Square root of negative number" else .ok (msqrt v)
  | _ => .error "Unknown unary operator"

mutual

/-- The `evaluate(node, ctx)` function of eval.cpp.  The context parameter is
`const`: evaluation only reads it.  Matrix and Tensor nodes throw through
`eval_matrix_op`/`eval_tensor_op` without visiting children; the eight
remaining variants (Boolean, String, statements) throw via `default`.  The
null-node check has no counterpart because child nodes are inline values. -/
def evaluate : Node → EvalContext → Except String D
  | .number v, _ => .ok v
  | .var n, c =>
      match lookupVar c n with
      | none => .error ("Undefined variable: " ++ n)
      | some v => .ok v
  | .binaryOp op a b, c => do
      let l ← evaluate a c
      let r ← evaluate b c
      evalBinaryOp op l r
  | .unaryOp op x, c => do
      let v ← evaluate x c
      evalUnaryOp op v
  | .function n args, c => do
      let vs ← evalArgs args c
      match lookupFn c n with
      | some f => f vs
      | none => .error ("Unknown function: " ++ n)
  | .matrix _, _ => .error "Matrix operations not yet implemented"
  | .tensor _ _, _ => .error "Tensor operations not yet implemented"
  | _, _ => .error "Unknown node type in evaluation"

/-- The argument loop of the `FUNCTION` case: evaluate each argument left to
right, aborting on the first error. -/
def evalArgs : List Node → EvalContext → Except String (List D)
  | [], _ => .ok []
  | a :: rest, c => do
      let v ← evaluate a c
      let vs ← evalArgs rest c
      .ok (v :: vs)

end

mutual

/-- State-threaded form of `evaluate`: the same case analysis, with the
context passed along every sub-evaluation in execution order and returned at
the end, so that what happens to the environment across a call (including one
that ends in an error) is an explicit output. -/
def evaluateSt : Node → EvalContext → (Except String D) × EvalContext
  | .number v, c => (.ok v, c)
  | .var n, c =>
      (match lookupVar c n with
       | none => .error ("Undefined variable: " ++ n)
       | some v => .ok v, c)
  | .binaryOp op a b, c =>
      match evaluateSt a c with
      | (.error e, c1) => (.error e, c1)
      | (.ok l, c1) =>
        match evaluateSt b c1 with
        | (.error e, c2) => (.error e, c2)
        | (.ok r, c2) => (evalBinaryOp op l r, c2)
  | .unaryOp op x, c =>
      match evaluateSt x c with
      | (.error e, c1) => (.error e, c1)
      | (.ok v, c1) => (evalUnaryOp op v, c1)
  | .function n args, c =>
      match evalArgsSt args c with
      | (.error e, c1) => (.error e, c1)
      | (.ok vs, c1) =>
        (match lookupFn c1 n with
         | some f => f vs
         | none => .error ("Unknown function: " ++ n), c1)
  | .matrix _, c => (.error "Matrix operations not yet implemented", c)
  | .tensor _ _, c => (.error "Tensor operations not yet implemented", c)
  | _, c => (.error "Unknown node type in evaluation", c)

/-- State-threaded form of the argument loop. -/
def evalArgsSt : List Node → EvalContext → (Except String (List D)) × EvalContext
  | [], c => (.ok [], c)
  | a :: rest, c =>
      match evaluateSt a c with
      | (.error e, c1) => (.error e, c1)
      | (.ok v, c1) =>
        match evalArgsSt rest c1 with
        | (.error e, c2) => (.error e, c2)
        | (.ok vs, c2) => (.ok (v :: vs), c2)

end

/-- The `set_variable` operation: always succeeds, overwrites (the new
binding is prepended and shadows any older one). -/
def setVariable (name : String) (v : D) (c : EvalContext) : EvalContext :=
  { c with vars := (name, v) :: c.vars }

/-- The `get_variable` operation of eval.cpp. -/
def getVariable (name : String) (c : EvalContext) : Except String D :=
  match lookupVar c name with
  | none => .error ("Undefined variable: " ++ name)
  | some v => .ok v

/-- The `register_function` operation of eval.cpp: fails on a name already
present, otherwise stores the implementation wrapped so that `validate_args`
runs on every call before the underlying function.  The `arity` parameter is
a `size_t`: a caller passing `-1` stores `18446744073709551615`. -/
def registerFunction (name : String) (func : FnImpl) (arity : Nat)
    (c : EvalContext) : Except String EvalContext :=
  if (lookupFn c name).isSome then
    .error ("Function already registered: " ++ name)
  else
    .ok { c with functions :=
      (name, fun args => do
        let _ ← validateArgs name arity args.length
        func args) :: c.functions }

/-- Reading `args[0]` from a `std::vector<double>`: out-of-range access is
undefined behaviour, modelled as `nan`. -/
def arg0 (args : List D) : D := args.getD 0 .nan

/-- Reading `args[1]`; out-of-range access modelled as `nan`. -/
def arg1 (args : List D) : D := args.getD 1 .nan

/-- The function table a freshly constructed `EvalContext` installs in its
constructor: the seven math functions, stored directly with no
`validate_args` wrapper and no domain guard. -/
def defaultFns : List (String × FnImpl) :=
  [("sin", fun args => .ok (msin (arg0 args))),
   ("cos", fun args => .ok (mcos (arg0 args))),
   ("tan", fun args => .ok (mtan (arg0 args))),
   ("exp", fun args => .ok (mexp (arg0 args))),
   ("log", fun args => .ok (mlog (arg0 args))),
   ("sqrt", fun args => .ok (msqrt (arg0 args))),
   ("pow", fun args => .ok (dpow (arg0 args) (arg1 args)))]

/-- A freshly constructed evaluation context (the state of the thread-local
`global_context` before anything else runs). -/
def freshContext : EvalContext := { vars := [], functions := defaultFns }

/-- `std::min_element` over the argument vector with `<`: the first element
wins ties; an empty vector is undefined behaviour (dereferencing `end()`),
modelled as an error. -/
def minImpl : FnImpl := fun args =>
  match args with
  | [] => .error "undefined behavior: min_element of empty range"
  | a :: rest => .ok (rest.foldl (fun m x => if dlt x m then x else m) a)

/-- `std::max_element` over the argument vector; empty input is undefined
behaviour, modelled as an error. -/
def maxImpl : FnImpl := fun args =>
  match args with
  | [] => .error "undefined behavior: max_element of empty range"
  | a :: rest => .ok (rest.foldl (fun m x => if dlt m x then x else m) a)

/-- `std::abs(args[0])`. -/
def absImpl : FnImpl := fun args => .ok (dabs (arg0 args))

/-- `std::accumulate(args, 0.0)`. -/
def sumImpl : FnImpl := fun args => .ok (args.foldl dadd (.fin 0))

/-- Sum divided by `args.size()`; for an empty vector this is `0.0/0`,
which is `nan`, not an error. -/
def avgImpl : FnImpl := fun args =>
  .ok (ddiv (args.foldl dadd (.fin 0)) (.fin args.length))

/-- The `(size_t)(-1)` that `builtin::initialize` passes as the arity of its
variadic functions: `-1` converted to `size_t` is `2^64 - 1`. -/
def sizeTNegOne : Nat := 18446744073709551615

/-- The double literal `3.14159265358979323846` (rounding to the nearest
double is not modelled). -/
def piD : D := .fin (3.14159265358979323846 : ℚ)

/-- The double literal `2.71828182845904523536`. -/
def eulerD : D := .fin (2.71828182845904523536 : ℚ)

/-- The `builtin::initialize` bootstrap of eval.cpp, acting on a context:
registers `abs` with arity 1 and `min`/`max`/`sum`/`avg` with arity `-1`
(which the `size_t` parameter receives as `2^64 - 1`), then sets the
constants `pi`, `e`, `inf`. -/
def builtinInitialize (c : EvalContext) : Except String EvalContext := do
  let c ← registerFunction "abs" absImpl 1 c
  let c ← registerFunction "min" minImpl sizeTNegOne c
  let c ← registerFunction "max" maxImpl sizeTNegOne c
  let c ← registerFunction "sum" sumImpl sizeTNegOne c
  let c ← registerFunction "avg" avgImpl sizeTNegOne c
  .ok (setVariable "inf" .inf (setVariable "e" eulerD (setVariable "pi" piD c)))

/-- The global context right after the fixed bootstrap: a fresh context (with
the constructor-installed math functions) passed through
`builtin::initialize`. -/
def bootCtx : Except String EvalContext := builtinInitialize freshContext

/-! ## Parser (the Pratt parser translation unit) -/

/-- The lexer token types referenced by lex.cpp and the parser. -/
inductive TokenType where
  | NUMBER | IDENTIFIER | STRING
  | PLUS | MINUS | STAR | SLASH | PERCENT | CARET
  | EQUAL | EQEQ | NEQ | LESS | LEQ | GREATER | GEQ | BANG
  | ARROW | POW
  | LPAREN | RPAREN | LBRACKET | RBRACKET | LBRACE | RBRACE
  | COMMA | DOT | COLON | SEMI
  | LET | FN | IF | ELSE | FOR | WHILE | RETURN
  | TRUE | FALSE | INF | NAN | PI | E
  | EOFT
deriving DecidableEq, Repr

/-- A lexer token: type, text span, numeric payload (valid only for numeric
literals), source position. -/
structure Token where
  type : TokenType
  text : String
  value : D
  line : Nat
  col : Nat
deriving DecidableEq, Repr

/-- A `ParseError{message, line, column}`. -/
structure PErr where
  message : String
  line : Nat
  col : Nat
deriving DecidableEq, Repr

/-- The fixed 13-level precedence ladder of the parser. -/
def PREC_NONE : Nat := 0
/-- Precedence level 1. -/
def PREC_ASSIGNMENT : Nat := 1
/-- Precedence level 2. -/
def PREC_TERNARY : Nat := 2
/-- Precedence level 3. -/
def PREC_OR : Nat := 3
/-- Precedence level 4. -/
def PREC_AND : Nat := 4
/-- Precedence level 5. -/
def PREC_EQUALITY : Nat := 5
/-- Precedence level 6. -/
def PREC_COMPARISON : Nat := 6
/-- Precedence level 7. -/
def PREC_TERM : Nat := 7
/-- Precedence level 8. -/
def PREC_FACTOR : Nat := 8
/-- Precedence level 9. -/
def PREC_UNARY : Nat := 9
/-- Precedence level 10. -/
def PREC_POWER : Nat := 10
/-- Precedence level 11. -/
def PREC_CALL : Nat := 11
/-- Precedence level 12. -/
def PREC_PRIMARY : Nat := 12

/-- The prefix handler member functions of the parser, as tags. -/
inductive PrefixHandler where
  | number | variableH | stringH | boolean | constant | grouping | matrix | unary
deriving DecidableEq, Repr

/-- The infix handler member functions of the parser, as tags. -/
inductive InfixHandler where
  | binary | assignment | call
deriving DecidableEq, Repr

/-- A `ParseRule`: optional prefix handler, optional infix handler, binding
precedence. -/
structure ParseRule where
  prefixFn : Option PrefixHandler
  infixFn : Option InfixHandler
  prec : Nat
deriving DecidableEq, Repr

/-- The `rules_` table built by `setup_rules`; token types absent from the
table are `none`. -/
def rules : TokenType → Option ParseRule
  | .NUMBER => some ⟨some .number, none, PREC_NONE⟩
  | .IDENTIFIER => some ⟨some .variableH, some .call, PREC_CALL⟩
  | .STRING => some ⟨some .stringH, none, PREC_NONE⟩
  | .LPAREN => some ⟨some .grouping, some .call, PREC_CALL⟩
  | .LBRACKET => some ⟨some .matrix, none, PREC_NONE⟩
  | .MINUS => some ⟨some .unary, some .binary, PREC_TERM⟩
  | .PLUS => some ⟨none, some .binary, PREC_TERM⟩
  | .STAR => some ⟨none, some .binary, PREC_FACTOR⟩
  | .SLASH => some ⟨none, some .binary, PREC_FACTOR⟩
  | .CARET => some ⟨none, some .binary, PREC_POWER⟩
  | .EQUAL => some ⟨none, some .assignment, PREC_ASSIGNMENT⟩
  | .EQEQ => some ⟨none, some .binary, PREC_EQUALITY⟩
  | .NEQ => some ⟨none, some .binary, PREC_EQUALITY⟩
  | .LESS => some ⟨none, some .binary, PREC_COMPARISON⟩
  | .LEQ => some ⟨none, some .binary, PREC_COMPARISON⟩
  | .GREATER => some ⟨none, some .binary, PREC_COMPARISON⟩
  | .GEQ => some ⟨none, some .binary, PREC_COMPARISON⟩
  | .BANG => some ⟨some .unary, none, PREC_NONE⟩
  | .TRUE => some ⟨some .boolean, none, PREC_NONE⟩
  | .FALSE => some ⟨some .boolean, none, PREC_NONE⟩
  | .PI => some ⟨some .constant, none, PREC_NONE⟩
  | .E => some ⟨some .constant, none, PREC_NONE⟩
  | .INF => some ⟨some .constant, none, PREC_NONE⟩
  | .NAN => some ⟨some .constant, none, PREC_NONE⟩
  | _ => none

/-- `get_rule`: the table entry, or `{nullptr, nullptr, PREC_NONE}` when the
token type is not in the map. -/
def getRule (t : TokenType) : ParseRule := (rules t).getD ⟨none, none, PREC_NONE⟩

/-- The end-of-input token the lexer keeps producing once the source is
exhausted. -/
def eofDefault : Token := { type := .EOFT, text := "", value := .fin 0, line := 0, col := 0 }

/-- `lexer.next()` over a token list: the head, or end-of-input forever. -/
def popTok : List Token → Token × List Token
  | [] => (eofDefault, [])
  | t :: ts => (t, ts)

/-- The parser state: the 2-token lookahead buffer (`current_`, `next_`) plus
the remaining token stream. -/
structure PState where
  current : Token
  next : Token
  rest : List Token
deriving Repr

/-- The `advance` helper: `current_ = next_; next_ = lexer_.next()`. -/
def advance (st : PState) : PState :=
  let (n2, r2) := popTok st.rest
  { current := st.next, next := n2, rest := r2 }

/-- The `consume` helper: advance past an expected token type or fail with
the given message at the current token. -/
def consume (ty : TokenType) (msg : String) (st : PState) : Except PErr PState :=
  if st.current.type = ty then .ok (advance st)
  else .error ⟨msg, st.current.line, st.current.col⟩

/-- The `match` helper: advance and report true when the current token has
the given type, otherwise leave the state unchanged. -/
def matchTok (ty : TokenType) (st : PState) : Bool × PState :=
  if st.current.type = ty then (true, advance st) else (false, st)

mutual

/-- The `parse_expression(min_precedence)` driver: run the prefix handler of
the current token, then fold infix handlers while the current token binds at
least as tightly as `minPrec`.  The extra fuel argument makes the recursion
structural; fuel exhaustion cannot occur for the inputs considered below. -/
def parseExpression : Nat → Nat → PState → Except PErr (Node × PState)
  | 0, _, st => .error ⟨"out of fuel", st.current.line, st.current.col⟩
  | fuel + 1, minPrec, st => do
      let (e, st) ← parsePrefix fuel st
      parseInfixLoop fuel minPrec e st

/-- The `while (precedence <= get_rule(current_.type).precedence)` loop. -/
def parseInfixLoop : Nat → Nat → Node → PState → Except PErr (Node × PState)
  | 0, _, _, st => .error ⟨"out of fuel", st.current.line, st.current.col⟩
  | fuel + 1, minPrec, e, st =>
      if minPrec ≤ (getRule st.current.type).prec then do
        let (e2, st2) ← parseInfix fuel e st
        parseInfixLoop fuel minPrec e2 st2
      else .ok (e, st)

/-- `parse_prefix`: dispatch on the prefix handler of the current token, failing
with `Expected expression` when there is none. -/
def parsePrefix : Nat → PState → Except PErr (Node × PState)
  | 0, st => .error ⟨"out of fuel", st.current.line, st.current.col⟩
  | fuel + 1, st =>
      match (getRule st.current.type).prefixFn with
      | none => .error ⟨"Expected expression", st.current.line, st.current.col⟩
      | some h => runPrefix fuel h st

/-- `parse_infix`: dispatch on the infix handler of the current token.  A missing
handler would be a call through a null `std::function`; it is unreachable
because the loop guard admits only precedences of at least 1 and every table
entry with a positive precedence has an infix handler. -/
def parseInfix : Nat → Node → PState → Except PErr (Node × PState)
  | 0, _, st => .error ⟨"out of fuel", st.current.line, st.current.col⟩
  | fuel + 1, left, st =>
      match (getRule st.current.type).infixFn with
      | none => .error ⟨"bad_function_call", st.current.line, st.current.col⟩
      | some h => runInfix fuel h left st

/-- The prefix handler bodies. -/
def runPrefix : Nat → PrefixHandler → PState → Except PErr (Node × PState)
  | 0, _, st => .error ⟨"out of fuel", st.current.line, st.current.col⟩
  | fuel + 1, h, st =>
      match h with
      | .number => .ok (.number st.current.value, advance st)
      | .variableH => .ok (.var st.current.text, advance st)
      | .stringH => .ok (.string st.current.text, advance st)
      | .boolean => .ok (.boolean (st.current.type == .TRUE), advance st)
      | .constant =>
          match st.current.type with
          | .PI => .ok (.number piD, advance st)
          | .E => .ok (.number eulerD, advance st)
          | .INF => .ok (.number .inf, advance st)
          | .NAN => .ok (.number .nan, advance st)
          | _ => .error ⟨"Unknown constant", st.current.line, st.current.col⟩
      | .grouping => do
          let st := advance st
          let (e, st) ← parseExpression fuel PREC_ASSIGNMENT st
          let st ← consume .RPAREN "Expect \x27)\x27 after expression" st
          .ok (e, st)
      | .matrix => do
          let st := advance st
          let (b, st1) := matchTok .RBRACKET st
          if b then .ok (.matrix [], st1)
          else do
            let (rows, st2) ← matrixRows fuel [] st1
            .ok (.matrix rows, st2)
      | .unary => do
          let op := st.current
          let st := advance st
          let (right, st) ← parseExpression fuel PREC_UNARY st
          match op.type with
          | .MINUS => .ok (.unaryOp .NEGATE right, st)
          | .BANG => .ok (.unaryOp .NOT right, st)
          | _ => .error ⟨"Invalid unary operator", st.current.line, st.current.col⟩

/-- One matrix row: either a bracketed (possibly empty) comma-separated
sub-list, or a single bare expression. -/
def matrixRow : Nat → PState → Except PErr (List Node × PState)
  | 0, st => .error ⟨"out of fuel", st.current.line, st.current.col⟩
  | fuel + 1, st =>
      let (b, st) := matchTok .LBRACKET st
      if b then
        let (b2, st) := matchTok .RBRACKET st
        if b2 then .ok ([], st)
        else do
          let (row, st) ← rowElems fuel [] st
          let st ← consume .RBRACKET "Expect \x27]\x27 after row elements" st
          .ok (row, st)
      else do
        let (e, st) ← parseExpression fuel PREC_ASSIGNMENT st
        .ok ([e], st)

/-- The `do { ... } while (match(COMMA))` loop over the elements of a
bracketed row. -/
def rowElems : Nat → List Node → PState → Except PErr (List Node × PState)
  | 0, _, st => .error ⟨"out of fuel", st.current.line, st.current.col⟩
  | fuel + 1, acc, st => do
      let (e, st) ← parseExpression fuel PREC_ASSIGNMENT st
      let (b, st2) := matchTok .COMMA st
      if b then rowElems fuel (acc ++ [e]) st2 else .ok (acc ++ [e], st2)

/-- The `do { ... } while (match(COMMA))` loop over matrix rows, terminated
by the closing bracket. -/
def matrixRows : Nat → List (List Node) → PState → Except PErr (List (List Node) × PState)
  | 0, _, st => .error ⟨"out of fuel", st.current.line, st.current.col⟩
  | fuel + 1, acc, st => do
      let (row, st) ← matrixRow fuel st
      let (b, st2) := matchTok .COMMA st
      if b then matrixRows fuel (acc ++ [row]) st2
      else do
        let st3 ← consume .RBRACKET "Expect \x27]\x27 after matrix rows" st2
        .ok (acc ++ [row], st3)

/-- The infix handler bodies.  Note that `binary` and `assignment` advance
past the operator token before parsing the right-hand side, while `call`
starts matching immediately without consuming the `(` that invoked it. -/
def runInfix : Nat → InfixHandler → Node → PState → Except PErr (Node × PState)
  | 0, _, _, st => .error ⟨"out of fuel", st.current.line, st.current.col⟩
  | fuel + 1, h, left, st =>
      match h with
      | .binary => do
          let op := st.current
          let st := advance st
          let rule := getRule op.type
          let (right, st) ← parseExpression fuel rule.prec st
          match op.type with
          | .PLUS => .ok (.binaryOp .ADD left right, st)
          | .MINUS => .ok (.binaryOp .SUB left right, st)
          | .STAR => .ok (.binaryOp .MUL left right, st)
          | .SLASH => .ok (.binaryOp .DIV left right, st)
          | .CARET => .ok (.binaryOp .POW left right, st)
          | .EQEQ => .ok (.binaryOp .EQ left right, st)
          | .NEQ => .ok (.binaryOp .NEQ left right, st)
          | .LESS => .ok (.binaryOp .LT left right, st)
          | .LEQ => .ok (.binaryOp .LEQ left right, st)
          | .GREATER => .ok (.binaryOp .GT left right, st)
          | .GEQ => .ok (.binaryOp .GEQ left right, st)
          | _ => .error ⟨"Invalid binary operator", st.current.line, st.current.col⟩
      | .assignment =>
          match left with
          | .var name => do
              let st := advance st
              let (value, st) ← parseExpression fuel PREC_ASSIGNMENT st
              .ok (.assignment name value, st)
          | _ => .error ⟨"Invalid assignment target", st.current.line, st.current.col⟩
      | .call =>
          match left with
          | .var name =>
              let (b, st1) := matchTok .RPAREN st
              if b then .ok (.function name [], st1)
              else do
                let (args, st2) ← callArgs fuel [] st1
                let st3 ← consume .RPAREN "Expect \x27)\x27 after arguments" st2
                .ok (.function name args, st3)
          | _ => .error ⟨"Can only call functions and methods", st.current.line, st.current.col⟩

/-- The `do { args.push_back(parse_expression()); } while (match(COMMA))`
loop of the `call` handler. -/
def callArgs : Nat → List Node → PState → Except PErr (List Node × PState)
  | 0, _, st => .error ⟨"out of fuel", st.current.line, st.current.col⟩
  | fuel + 1, acc, st => do
      let (e, st) ← parseExpression fuel PREC_ASSIGNMENT st
      let (b, st2) := matchTok .COMMA st
      if b then callArgs fuel (acc ++ [e]) st2 else .ok (acc ++ [e], st2)

end

/-- The parser constructor: fill the 2-token lookahead from the stream. -/
def initState (toks : List Token) : PState :=
  let (c, r1) := popTok toks
  let (n, r2) := popTok r1
  { current := c, next := n, rest := r2 }

/-- Fuel bound for a token list.  Between consecutive `parseExpression`
entries at most one step happens with no token consumed (the `call` handler),
so twice the token count plus a constant strictly dominates the recursion
depth of every input considered below. -/
def parseFuel (toks : List Token) : Nat := 4 * toks.length + 16

/-- The `parse(lexer)` entry point: `Parser(lexer).parse()`, which runs
`parse_expression()` at the default minimum precedence and returns its tree
(tokens past the parsed expression are left unconsumed). -/
def parseToks (toks : List Token) : Except PErr Node := do
  let (e, _) ← parseExpression (parseFuel toks) PREC_ASSIGNMENT (initState toks)
  .ok e

/-- A NUMBER token carrying a payload, at line 1 and the given column. -/
def numTok (q : ℚ) (c : Nat) : Token :=
  { type := .NUMBER, text := "", value := .fin q, line := 1, col := c }

/-- An operator/punctuation token of the given type, at line 1 and the given
column. -/
def opTok (t : TokenType) (c : Nat) : Token :=
  { type := t, text := "", value := .fin 0, line := 1, col := c }

/-- An IDENTIFIER token with the given text. -/
def identTok (s : String) (c : Nat) : Token :=
  { type := .IDENTIFIER, text := s, value := .fin 0, line := 1, col := c }

/-- An end-of-input token at line 1 and the given column. -/
def eofTok (c : Nat) : Token :=
  { type := .EOFT, text := "", value := .fin 0, line := 1, col := c }

/-! ## Helper lemmas -/

theorem deq_fin_zero_iff (r : D) : deq r (.fin 0) = true ↔ r = .fin 0 := by
  cases r <;> simp [deq]

theorem deq_true_eq {x y : D} (h : deq x y = true) : x = y := by
  cases x <;> cases y <;> simp_all [deq]

/-- The token types handled by the `binary` infix handler. -/
def binaryInfixToks : List TokenType :=
  [.PLUS, .MINUS, .STAR, .SLASH, .CARET, .EQEQ, .NEQ, .LESS, .LEQ, .GREATER, .GEQ]

/-- The operator the `binary` handler constructs for each token type (the
switch at the end of `Parser::binary`); token types it does not handle are
mapped to ADD and never used under that restriction. -/
def binOpOfTok : TokenType → BinaryOp
  | .PLUS => .ADD
  | .MINUS => .SUB
  | .STAR => .MUL
  | .SLASH => .DIV
  | .CARET => .POW
  | .EQEQ => .EQ
  | .NEQ => .NEQ
  | .LESS => .LT
  | .LEQ => .LEQ
  | .GREATER => .GT
  | .GEQ => .GEQ
  | _ => .ADD

/-! ## Claims -/

/-- C1: the claim says a registered arity of `-1` makes evaluation skip the
arity check, so that after `builtin::initialize` the call `max(1,7,3)`
returns 7.  In the code `register_function` takes the arity as `size_t`, so
the `-1` the bootstrap passes arrives as `18446744073709551615`, and
`validate_args` has no variadic special case: the wrapped `max` rejects its 3
arguments with an arity error instead of returning 7, contradicting the
source comment that `-1` means variable arguments. -/
theorem c1_max_call_hits_arity_check :
    (do
      let c ← bootCtx
      evaluate (.function "max"
        [.number (.fin 1), .number (.fin 7), .number (.fin 3)]) c
      : Except String D) =
    .error "Function max expects 18446744073709551615 arguments, got 3" := by
  rfl

/-- C2: the claim says a Variable followed by a parenthesized argument list
parses to a Function node, in particular `square(9)`.  The `call` infix
handler never advances past the `(` that invoked it, so the opening paren is
consumed by the `grouping` prefix handler while parsing the first argument
and the trailing `consume(RPAREN)` then sees end-of-input: parsing
`square(9)` fails with `Expect \x27)\x27 after arguments`, while the
ill-formed stream `square(9))` is what actually produces
`Function("square", [Number(9)])`. -/
theorem c2_call_drops_open_paren :
    parseToks [identTok "square" 1, opTok .LPAREN 7, numTok 9 8,
      opTok .RPAREN 9, eofTok 10]
      = .error ⟨"Expect \x27)\x27 after arguments", 1, 10⟩ ∧
    parseToks [identTok "square" 1, opTok .LPAREN 7, numTok 9 8,
      opTok .RPAREN 9, opTok .RPAREN 10, eofTok 11]
      = .ok (.function "square" [.number (.fin 9)]) := by
  exact ⟨rfl, rfl⟩

/-- C3: `*` and `/` (PREC_FACTOR) bind tighter than `+` and `-` (PREC_TERM);
every `binary` infix handler recurses at its own table precedence, so two
equal-precedence binary operators group to the right; and `2+3*4` parses as
`ADD(2, MUL(3, 4))` and evaluates to 14. -/
theorem c3_precedence_and_right_association :
    ((getRule .PLUS).prec < (getRule .STAR).prec ∧
     (getRule .PLUS).prec < (getRule .SLASH).prec ∧
     (getRule .MINUS).prec < (getRule .STAR).prec ∧
     (getRule .MINUS).prec < (getRule .SLASH).prec) ∧
    (∀ t1 t2, t1 ∈ binaryInfixToks → t2 ∈ binaryInfixToks →
      (getRule t1).prec = (getRule t2).prec →
      ∀ a b c : ℚ,
        parseToks [numTok a 1, opTok t1 2, numTok b 3, opTok t2 4, numTok c 5, eofTok 6]
          = .ok (.binaryOp (binOpOfTok t1) (.number (.fin a))
              (.binaryOp (binOpOfTok t2) (.number (.fin b)) (.number (.fin c))))) ∧
    (parseToks [numTok 2 1, opTok .PLUS 2, numTok 3 3, opTok .STAR 4, numTok 4 5, eofTok 6]
      = .ok (.binaryOp .ADD (.number (.fin 2))
          (.binaryOp .MUL (.number (.fin 3)) (.number (.fin 4)))) ∧
     evaluate (.binaryOp .ADD (.number (.fin 2))
        (.binaryOp .MUL (.number (.fin 3)) (.number (.fin 4)))) freshContext
      = .ok (.fin 14)) := by
  refine ⟨⟨by decide, by decide, by decide, by decide⟩, ?_, rfl, ?_⟩
  · intro t1 t2 h1 h2 hp a b c
    fin_cases h1 <;> fin_cases h2 <;>
      first
        | rfl
        | exact absurd hp (by decide)
  · simp only [evaluate, evalBinaryOp, bind, Except.bind, dmul, dadd]
    norm_num

/-- Witness for C3: the equal-precedence instance `5 - 3 - 1` groups as
`SUB(5, SUB(3, 1))`. -/
theorem c3_witness :
    (TokenType.MINUS ∈ binaryInfixToks ∧
     (getRule TokenType.MINUS).prec = (getRule TokenType.MINUS).prec) ∧
    parseToks [numTok 5 1, opTok .MINUS 2, numTok 3 3, opTok .MINUS 4, numTok 1 5, eofTok 6]
      = .ok (.binaryOp .SUB (.number (.fin 5))
          (.binaryOp .SUB (.number (.fin 3)) (.number (.fin 1)))) :=
  ⟨⟨by decide, rfl⟩,
   c3_precedence_and_right_association.2.1 .MINUS .MINUS (by decide) (by decide) rfl 5 3 1⟩

/-- C7 (amended): `simplify` simplifies the children of a BinaryOp first and,
when both simplify to Numbers, folds through the unguarded switch (`+ - * /
^` apply the operator, every other operator leaves `result = 0`), so folding
`1/0` yields the IEEE infinity rather than an error; a UnaryOp whose
simplified operand is a Number folds through
negate/sin/cos/tan/exp/log/sqrt; when the simplified children are not both
Numbers the node is rebuilt from them; and every node kind other than
BinaryOp and UnaryOp is handed to `clone` (which deep-copies the seven
implemented variants and throws for the rest). -/
theorem c7_simplify_folding :
    (∀ op a b la rb, simplify a = .ok (.number la) → simplify b = .ok (.number rb) →
       simplify (.binaryOp op a b) = .ok (.number (foldBinary op la rb))) ∧
    simplify (.binaryOp .DIV (.number (.fin 1)) (.number (.fin 0)))
      = .ok (.number .inf) ∧
    (∀ op x v, simplify x = .ok (.number v) →
       simplify (.unaryOp op x) = .ok (.number (foldUnary op v))) ∧
    (∀ op a b la rb, simplify a = .ok la → simplify b = .ok rb →
       (∀ p q, ¬(la = .number p ∧ rb = .number q)) →
       simplify (.binaryOp op a b) = .ok (.binaryOp op la rb)) ∧
    (∀ x, typeOf x ≠ .BINARY_OP → typeOf x ≠ .UNARY_OP → simplify x = clone x) := by
  refine ⟨?_, rfl, ?_, ?_, ?_⟩
  · intro op a b la rb ha hb
    simp [simplify, ha, hb, bind, Except.bind]
  · intro op x v hx
    simp [simplify, hx, bind, Except.bind]
  · intro op a b la rb ha hb hnot
    simp only [simplify, ha, hb, bind, Except.bind]
    cases la <;> cases rb <;>
      first
        | rfl
        | exact absurd ⟨rfl, rfl⟩ (hnot _ _)
  · intro x h1 h2
    cases x <;> first | rfl | (exact absurd rfl h1) | (exact absurd rfl h2)

/-- Counterexample to C7 as stated: a Boolean node is not deep-cloned
unchanged by `simplify`; it reaches the `default` arm and `clone` throws. -/
theorem c7_counterexample :
    simplify (.boolean true) = .error "Unknown node type in clone" := rfl

/-- Witness for C7: folding `1 + 2`, negating a folded operand, rebuilding a
non-foldable node, and the clone fallback on a Variable. -/
theorem c7_witness :
    simplify (.binaryOp .ADD (.number (.fin 1)) (.number (.fin 2)))
      = .ok (.number (foldBinary .ADD (.fin 1) (.fin 2))) ∧
    simplify (.unaryOp .NEGATE (.number (.fin 3)))
      = .ok (.number (foldUnary .NEGATE (.fin 3))) ∧
    simplify (.binaryOp .ADD (.var "x") (.number (.fin 2)))
      = .ok (.binaryOp .ADD (.var "x") (.number (.fin 2))) ∧
    simplify (.var "x") = clone (.var "x") :=
  ⟨c7_simplify_folding.1 .ADD (.number (.fin 1)) (.number (.fin 2)) (.fin 1) (.fin 2) rfl rfl,
   c7_simplify_folding.2.2.1 .NEGATE (.number (.fin 3)) (.fin 3) rfl,
   c7_simplify_folding.2.2.2.1 .ADD (.var "x") (.number (.fin 2)) (.var "x") (.number (.fin 2))
     rfl rfl (by intro p q h; exact Node.noConfusion h.1),
   c7_simplify_folding.2.2.2.2 (.var "x") (by decide) (by decide)⟩

/-- C8: in the evaluator, `/` fails with `Division by zero` and `%` with
`Modulo by zero` exactly when the evaluated right operand is exactly 0;
`log` fails exactly when its operand compares `<= 0`, `sqrt` exactly when
its operand compares `< 0`, and `sqrt` of exactly 0 returns 0. -/
theorem c8_zero_and_domain_guards :
    (∀ ctx a b la rb, evaluate a ctx = .ok la → evaluate b ctx = .ok rb →
      ((evaluate (.binaryOp .DIV a b) ctx = .error "Division by zero" ↔ rb = .fin 0) ∧
       (evaluate (.binaryOp .MOD a b) ctx = .error "Modulo by zero" ↔ rb = .fin 0))) ∧
    (∀ ctx x v, evaluate x ctx = .ok v →
      ((evaluate (.unaryOp .LOG x) ctx = .error "Logarithm of non-positive number"
          ↔ dle v (.fin 0) = true) ∧
       (evaluate (.unaryOp .SQRT x) ctx = .error "Square root of negative number"
          ↔ dlt v (.fin 0) = true) ∧
       (v = .fin 0 → evaluate (.unaryOp .SQRT x) ctx = .ok (.fin 0)))) := by
  constructor
  · intro ctx a b la rb ha hb
    constructor
    · simp only [evaluate, ha, hb, bind, Except.bind, evalBinaryOp, deq_fin_zero_iff]
      split <;> simp_all
    · simp only [evaluate, ha, hb, bind, Except.bind, evalBinaryOp, deq_fin_zero_iff]
      split <;> simp_all
  · intro ctx x v hx
    refine ⟨?_, ?_, ?_⟩
    · simp only [evaluate, hx, bind, Except.bind, evalUnaryOp]
      split <;> simp_all
    · simp only [evaluate, hx, bind, Except.bind, evalUnaryOp]
      split <;> simp_all
    · intro hv
      subst hv
      simp only [evaluate, hx, bind, Except.bind, evalUnaryOp]
      rfl

/-- Witness for C8: `1/0` fails with the division message and `sqrt(0)`
returns 0. -/
theorem c8_witness :
    evaluate (.binaryOp .DIV (.number (.fin 1)) (.number (.fin 0))) freshContext
      = .error "Division by zero" ∧
    evaluate (.unaryOp .SQRT (.number (.fin 0))) freshContext = .ok (.fin 0) :=
  ⟨((c8_zero_and_domain_guards.1 freshContext (.number (.fin 1)) (.number (.fin 0))
      (.fin 1) (.fin 0) rfl rfl).1).mpr rfl,
   (c8_zero_and_domain_guards.2 freshContext (.number (.fin 0)) (.fin 0) rfl).2.2 rfl⟩

/-- C10: a freshly constructed context already holds function-table entries
for the seven math functions, installed without the `validate_args` wrapper,
so re-registering any of them fails with the already-registered error even
before `builtin::initialize`, a Function-node call to them performs no arity
check (a two-argument `sin` call succeeds), and the Function-call path has no
domain guard: `log(0)` returns `-inf` instead of failing. -/
theorem c10_constructor_builtins :
    (∀ name, name ∈ ["sin", "cos", "tan", "exp", "log", "sqrt", "pow"] →
      (lookupFn freshContext name).isSome = true ∧
      ∀ f k, registerFunction name f k freshContext
        = .error ("Function already registered: " ++ name)) ∧
    evaluate (.function "log" [.number (.fin 0)]) freshContext = .ok .neginf ∧
    evaluate (.function "sin" [.number (.fin 1), .number (.fin 2)]) freshContext
      = .ok (msin (.fin 1)) := by
  refine ⟨?_, rfl, rfl⟩
  intro name h
  fin_cases h <;> exact ⟨rfl, fun f k => rfl⟩

/-- Witness for C10: re-registering `sin` on a fresh context is rejected. -/
theorem c10_witness :
    ("sin" ∈ (["sin", "cos", "tan", "exp", "log", "sqrt", "pow"] : List String)) ∧
    registerFunction "sin" (fun _ => .ok (.fin 0)) 1 freshContext
      = .error ("Function already registered: " ++ "sin") :=
  ⟨by decide,
   (c10_constructor_builtins.1 "sin" (by decide)).2 (fun _ => .ok (.fin 0)) 1⟩

theorem size_pos (n : Node) : 0 < size n := by
  cases n <;> simp [size]

theorem size_mem_le {x : Node} {l : List Node} (h : x ∈ l) : size x ≤ sizeList l := by
  induction l with
  | nil => cases h
  | cons a rest ih =>
      rcases List.mem_cons.mp h with rfl | h2
      · simp [sizeList]
      · have := ih h2
        simp [sizeList]
        omega

theorem size_mem_rows_le {x : Node} {row : List Node} {rows : List (List Node)}
    (hr : row ∈ rows) (hx : x ∈ row) : size x ≤ sizeRows rows := by
  induction rows with
  | nil => cases hr
  | cons r rs ih =>
      rcases List.mem_cons.mp hr with rfl | h2
      · have := size_mem_le hx
        simp [sizeRows]
        omega
      · have := ih h2
        simp [sizeRows]
        omega

theorem evalArgsSt_frame : ∀ (args : List Node) (c : EvalContext),
    (∀ x ∈ args, ∀ c2, evaluateSt x c2 = (evaluate x c2, c2)) →
    evalArgsSt args c = (evalArgs args c, c) := by
  intro args
  induction args with
  | nil => intro c _; rfl
  | cons a rest ihl =>
      intro c hIH
      have ha := hIH a (List.mem_cons_self a rest) c
      have hr := ihl c (fun x hx c2 => hIH x (List.mem_cons_of_mem a hx) c2)
      simp only [evalArgsSt, evalArgs, ha, hr, bind, Except.bind]
      cases hA : evaluate a c <;> cases hR : evalArgs rest c <;> simp [hr, hA, hR]

theorem evaluateSt_frame_aux : ∀ N (n : Node), size n ≤ N →
    ∀ c, evaluateSt n c = (evaluate n c, c) := by
  intro N
  induction N with
  | zero =>
      intro n h
      exact absurd h (by have := size_pos n; omega)
  | succ N ih =>
      intro n h c
      cases n with
      | number v => rfl
      | boolean v => rfl
      | string v => rfl
      | var nm =>
          simp only [evaluateSt, evaluate]
      | binaryOp op a b =>
          have ha := ih a (by simp only [size] at h; omega) c
          have hb := ih b (by simp only [size] at h; omega) c
          simp only [evaluateSt, evaluate, ha, hb, bind, Except.bind]
          cases hA : evaluate a c <;> cases hB : evaluate b c <;> simp [hb, hA, hB]
      | unaryOp op x =>
          have hx := ih x (by simp only [size] at h; omega) c
          simp only [evaluateSt, evaluate, hx, bind, Except.bind]
          cases hA : evaluate x c <;> simp [hA]
      | function nm args =>
          have hargs : evalArgsSt args c = (evalArgs args c, c) := by
            apply evalArgsSt_frame
            intro x hx c2
            apply ih x _ c2
            have h1 := size_mem_le hx
            simp only [size] at h
            omega
          simp only [evaluateSt, evaluate, hargs, bind, Except.bind]
          cases hA : evalArgs args c <;> simp [hA]
      | matrix rows => rfl
      | tensor dims vals => rfl
      | assignment nm v => rfl
      | block stmts => rfl
      | ifStmt cnd t e => rfl
      | whileStmt cnd b => rfl
      | forStmt i cnd inc b => rfl
      | returnStmt v => rfl

/-- C9: evaluation never touches the environment.  The context parameter of
`evaluate` is `const` and the function calls no mutating operation, so the
state-threaded rendition of the evaluator returns the input environment
unchanged — no variable binding and no function-table entry is added,
removed or modified — both when evaluation returns a value and when it
returns an error, and its result component agrees with `evaluate`. -/
theorem c9_evaluate_leaves_context_unchanged :
    ∀ (n : Node) (c : EvalContext), evaluateSt n c = (evaluate n c, c) :=
  fun n c => evaluateSt_frame_aux (size n) n le_rfl c

theorem preorderList_append (l1 l2 : List Node) :
    preorderList (l1 ++ l2) = preorderList l1 ++ preorderList l2 := by
  induction l1 with
  | nil => simp [preorderList]
  | cons x xs ih => simp [preorderList, ih]

theorem preorderList_flatten (rows : List (List Node)) :
    preorderList rows.flatten = preorderRows rows := by
  induction rows with
  | nil => simp [preorderList, preorderRows]
  | cons r rs ih => simp [List.flatten, preorderRows, preorderList_append, ih]

theorem valueOnlyList_append {l1 l2 : List Node}
    (h1 : valueOnlyList l1 = true) (h2 : valueOnlyList l2 = true) :
    valueOnlyList (l1 ++ l2) = true := by
  induction l1 with
  | nil => simpa using h2
  | cons x xs ih =>
      simp [valueOnlyList] at h1 ⊢
      exact ⟨h1.1, ih h1.2⟩

theorem valueOnlyList_flatten {rows : List (List Node)}
    (h : valueOnlyRows rows = true) : valueOnlyList rows.flatten = true := by
  induction rows with
  | nil => simp [valueOnlyList]
  | cons r rs ih =>
      simp [valueOnlyRows] at h
      simpa [List.flatten] using valueOnlyList_append h.1 (ih h.2)

theorem valueOnly_childrenOf {n : Node} (h : valueOnly n = true) :
    valueOnlyList (childrenOf n) = true := by
  cases n <;> simp_all [valueOnly, childrenOf, valueOnlyList] <;>
    first
      | rfl
      | exact valueOnlyList_flatten h

theorem preorder_eq_cons {n : Node} (h : valueOnly n = true) :
    preorder n = n :: preorderList (childrenOf n) := by
  cases n <;>
    simp_all [valueOnly, preorder, childrenOf, preorderList, preorderList_flatten]

theorem traverseStack_nil : traverseStack [] = [] := by
  simp [traverseStack]

theorem traverseStack_cons (n : Node) (rest : List Node) :
    traverseStack (n :: rest) = n :: traverseStack (childrenOf n ++ rest) := by
  rw [traverseStack]

theorem traverseStack_preorder : ∀ N (l rest : List Node), sizeList l ≤ N →
    valueOnlyList l = true →
    traverseStack (l ++ rest) = preorderList l ++ traverseStack rest := by
  intro N
  induction N with
  | zero =>
      intro l rest h hv
      cases l with
      | nil => simp [preorderList]
      | cons n l2 =>
          exfalso
          have := size_pos n
          simp [sizeList] at h
          omega
  | succ N ih =>
      intro l rest h hv
      cases l with
      | nil => simp [preorderList]
      | cons n l2 =>
          simp only [valueOnlyList, Bool.and_eq_true] at hv
          have hsz : sizeList (childrenOf n ++ l2) ≤ N := by
            have h1 := sizeList_childrenOf_lt n
            simp only [sizeList] at h
            rw [sizeList_append]
            omega
          have hvo : valueOnlyList (childrenOf n ++ l2) = true :=
            valueOnlyList_append (valueOnly_childrenOf hv.1) hv.2
          rw [List.cons_append, traverseStack_cons, ← List.append_assoc,
            ih (childrenOf n ++ l2) rest hsz hvo, preorderList_append]
          simp [preorderList, preorder_eq_cons hv.1]

theorem preorderOpt_length_of (o : Option Node)
    (IH : ∀ x, o = some x → (preorder x).length = size x) :
    (preorderOpt o).length = sizeOpt o := by
  cases o with
  | none => rfl
  | some x => simpa [preorderOpt, sizeOpt] using IH x rfl

theorem preorderList_length_of (l : List Node)
    (IH : ∀ x ∈ l, (preorder x).length = size x) :
    (preorderList l).length = sizeList l := by
  induction l with
  | nil => rfl
  | cons x xs ih =>
      simp only [preorderList, sizeList, List.length_append]
      rw [IH x (by simp), ih (fun y hy => IH y (by simp [hy]))]

theorem preorderRows_length_of (rows : List (List Node))
    (IH : ∀ r ∈ rows, ∀ x ∈ r, (preorder x).length = size x) :
    (preorderRows rows).length = sizeRows rows := by
  induction rows with
  | nil => rfl
  | cons r rs ih =>
      simp only [preorderRows, sizeRows, List.length_append]
      rw [preorderList_length_of r (fun x hx => IH r (by simp) x hx),
        ih (fun s hs x hx => IH s (by simp [hs]) x hx)]

theorem preorder_length : ∀ N (t : Node), size t ≤ N →
    (preorder t).length = size t := by
  intro N
  induction N with
  | zero =>
      intro t h
      exact absurd h (by have := size_pos t; omega)
  | succ N ih =>
      intro t h
      cases t with
      | number v => rfl
      | boolean v => rfl
      | string v => rfl
      | var nm => rfl
      | binaryOp op l r =>
          simp only [size] at h ⊢
          simp only [preorder, List.length_cons, List.length_append]
          rw [ih l (by omega), ih r (by omega)]
          omega
      | unaryOp op x =>
          simp only [size] at h ⊢
          simp only [preorder, List.length_cons]
          rw [ih x (by omega)]
          omega
      | function nm args =>
          simp only [size] at h ⊢
          simp only [preorder, List.length_cons]
          rw [preorderList_length_of args
            (fun x hx => ih x (by have := size_mem_le hx; omega))]
          omega
      | matrix rows =>
          simp only [size] at h ⊢
          simp only [preorder, List.length_cons]
          rw [preorderRows_length_of rows
            (fun r hr x hx => ih x (by have := size_mem_rows_le hr hx; omega))]
          omega
      | tensor dims vals =>
          simp only [size] at h ⊢
          simp only [preorder, List.length_cons]
          rw [preorderList_length_of vals
            (fun x hx => ih x (by have := size_mem_le hx; omega))]
          omega
      | assignment nm v =>
          simp only [size] at h ⊢
          simp only [preorder, List.length_cons]
          rw [ih v (by omega)]
          omega
      | block stmts =>
          simp only [size] at h ⊢
          simp only [preorder, List.length_cons]
          rw [preorderList_length_of stmts
            (fun x hx => ih x (by have := size_mem_le hx; omega))]
          omega
      | ifStmt cnd t e =>
          simp only [size] at h ⊢
          simp only [preorder, List.length_cons, List.length_append]
          rw [ih cnd (by omega), ih t (by omega),
            preorderOpt_length_of e (fun x hx => ih x (by cases e <;> simp_all [sizeOpt] <;> omega))]
          omega
      | whileStmt cnd b =>
          simp only [size] at h ⊢
          simp only [preorder, List.length_cons, List.length_append]
          rw [ih cnd (by omega), ih b (by omega)]
          omega
      | forStmt i cnd inc b =>
          simp only [size] at h ⊢
          simp only [preorder, List.length_cons, List.length_append]
          rw [ih i (by omega), ih cnd (by omega), ih inc (by omega), ih b (by omega)]
          omega
      | returnStmt v =>
          simp only [size] at h ⊢
          simp only [preorder, List.length_cons]
          rw [preorderOpt_length_of v (fun x hx => ih x (by cases v <;> simp_all [sizeOpt] <;> omega))]
          omega

/-- C6 (amended): on every tree built without statement-variant nodes
(Assignment, Block, If, While, For, Return — whose children the `default`
arm of the traversal switch skips), `traverse` visits the nodes in exactly
the recursive-descent pre-order — each node before its children, children
left to right — and the number of visits equals the number of nodes, so each
node is visited exactly once. -/
theorem c6_traverse_preorder : ∀ t : Node, valueOnly t = true →
    traverse t = preorder t ∧ (traverse t).length = size t := by
  intro t h
  have h1 : traverse t = preorder t := by
    have := traverseStack_preorder (sizeList [t]) [t] [] le_rfl
      (by simp [valueOnlyList, h])
    simpa [traverse, preorderList, traverseStack_nil] using this
  refine ⟨h1, ?_⟩
  rw [h1, preorder_length (size t) t le_rfl]

/-- Witness for C6: the spec example `BinaryOp(ADD, Number(1), Number(2))`
is visited in the order `[BinaryOp, Number(1), Number(2)]`. -/
theorem c6_witness :
    valueOnly (.binaryOp .ADD (.number (.fin 1)) (.number (.fin 2))) = true ∧
    traverse (.binaryOp .ADD (.number (.fin 1)) (.number (.fin 2)))
      = preorder (.binaryOp .ADD (.number (.fin 1)) (.number (.fin 2))) ∧
    preorder (.binaryOp .ADD (.number (.fin 1)) (.number (.fin 2)))
      = [.binaryOp .ADD (.number (.fin 1)) (.number (.fin 2)),
         .number (.fin 1), .number (.fin 2)] ∧
    (traverse (.binaryOp .ADD (.number (.fin 1)) (.number (.fin 2)))).length
      = size (.binaryOp .ADD (.number (.fin 1)) (.number (.fin 2))) :=
  ⟨rfl,
   (c6_traverse_preorder (.binaryOp .ADD (.number (.fin 1)) (.number (.fin 2))) rfl).1,
   rfl,
   (c6_traverse_preorder (.binaryOp .ADD (.number (.fin 1)) (.number (.fin 2))) rfl).2⟩

/-- Counterexample to C6 as stated: an Assignment node has its child skipped
by `traverse` (the `default` arm pushes nothing), so a 2-node tree produces a
single visit. -/
theorem c6_counterexample :
    traverse (.assignment "x" (.number (.fin 1))) = [.assignment "x" (.number (.fin 1))] ∧
    size (.assignment "x" (.number (.fin 1))) = 2 := by
  constructor
  · rw [traverse, traverseStack_cons]
    simp [childrenOf, traverseStack_nil]
  · rfl

mutual

/-- No `Number` leaf of the tree carries a NaN payload (NaN compares unequal
to itself under the exact `==` comparison `equals` uses). -/
def nanFree : Node → Bool
  | .number v => !(v == .nan)
  | .boolean _ => true
  | .string _ => true
  | .var _ => true
  | .binaryOp _ l r => nanFree l && nanFree r
  | .unaryOp _ x => nanFree x
  | .function _ args => nanFreeList args
  | .matrix rows => nanFreeRows rows
  | .tensor _ vals => nanFreeList vals
  | .assignment _ v => nanFree v
  | .block stmts => nanFreeList stmts
  | .ifStmt c t e => nanFree c && nanFree t && nanFreeOpt e
  | .whileStmt c b => nanFree c && nanFree b
  | .forStmt i c inc b => nanFree i && nanFree c && nanFree inc && nanFree b
  | .returnStmt v => nanFreeOpt v

/-- `nanFree` for every member of a vector. -/
def nanFreeList : List Node → Bool
  | [] => true
  | x :: xs => nanFree x && nanFreeList xs

/-- `nanFree` for every element of a matrix table. -/
def nanFreeRows : List (List Node) → Bool
  | [] => true
  | r :: rs => nanFreeList r && nanFreeRows rs

/-- `nanFree` for an optional child. -/
def nanFreeOpt : Option Node → Bool
  | none => true
  | some n => nanFree n

end

theorem coreOnlyList_mem {l : List Node} (h : coreOnlyList l = true)
    {x : Node} (hx : x ∈ l) : coreOnly x = true := by
  induction l with
  | nil => cases hx
  | cons a rest ih =>
      simp only [coreOnlyList, Bool.and_eq_true] at h
      rcases List.mem_cons.mp hx with rfl | h2
      · exact h.1
      · exact ih h.2 h2

theorem coreOnlyRows_mem {rows : List (List Node)} (h : coreOnlyRows rows = true)
    {r : List Node} (hr : r ∈ rows) : coreOnlyList r = true := by
  induction rows with
  | nil => cases hr
  | cons s ss ih =>
      simp only [coreOnlyRows, Bool.and_eq_true] at h
      rcases List.mem_cons.mp hr with rfl | h2
      · exact h.1
      · exact ih h.2 h2

theorem nanFreeList_mem {l : List Node} (h : nanFreeList l = true)
    {x : Node} (hx : x ∈ l) : nanFree x = true := by
  induction l with
  | nil => cases hx
  | cons a rest ih =>
      simp only [nanFreeList, Bool.and_eq_true] at h
      rcases List.mem_cons.mp hx with rfl | h2
      · exact h.1
      · exact ih h.2 h2

theorem nanFreeRows_mem {rows : List (List Node)} (h : nanFreeRows rows = true)
    {r : List Node} (hr : r ∈ rows) : nanFreeList r = true := by
  induction rows with
  | nil => cases hr
  | cons s ss ih =>
      simp only [nanFreeRows, Bool.and_eq_true] at h
      rcases List.mem_cons.mp hr with rfl | h2
      · exact h.1
      · exact ih h.2 h2

theorem cloneList_ok_of (l : List Node)
    (IH : ∀ x ∈ l, ∃ y, clone x = .ok y ∧ equals y x = .ok true) :
    ∃ ys, cloneList l = .ok ys ∧ ys.length = l.length ∧ equalsList ys l = .ok true := by
  induction l with
  | nil => exact ⟨[], rfl, rfl, rfl⟩
  | cons x xs ih =>
      obtain ⟨y, hcy, hey⟩ := IH x (by simp)
      obtain ⟨ys, hcys, hlen, heys⟩ := ih (fun z hz => IH z (by simp [hz]))
      refine ⟨y :: ys, ?_, by simp [hlen], ?_⟩
      · simp [cloneList, hcy, hcys, bind, Except.bind]
      · simp [equalsList, hey, heys, bind, Except.bind]

theorem cloneRows_ok_of (rows : List (List Node))
    (IH : ∀ r ∈ rows, ∀ x ∈ r, ∃ y, clone x = .ok y ∧ equals y x = .ok true) :
    ∃ yss, cloneRows rows = .ok yss ∧ yss.length = rows.length ∧
      equalsRows yss rows = .ok true := by
  induction rows with
  | nil => exact ⟨[], rfl, rfl, rfl⟩
  | cons r rs ih =>
      obtain ⟨ys, hcys, hlen, heys⟩ := cloneList_ok_of r (fun x hx => IH r (by simp) x hx)
      obtain ⟨yss, hcyss, hlens, heyss⟩ := ih (fun s hs x hx => IH s (by simp [hs]) x hx)
      refine ⟨ys :: yss, ?_, by simp [hlens], ?_⟩
      · simp [cloneRows, hcys, hcyss, bind, Except.bind]
      · simp [equalsRows, hlen, heys, heyss, bind, Except.bind]

theorem clone_equals_aux : ∀ N (x : Node), size x ≤ N → coreOnly x = true →
    nanFree x = true → ∃ y, clone x = .ok y ∧ equals y x = .ok true := by
  intro N
  induction N with
  | zero =>
      intro x h
      exact absurd h (by have := size_pos x; omega)
  | succ N ih =>
      intro x h hc hn
      cases x with
      | number v =>
          refine ⟨.number v, rfl, ?_⟩
          simp only [nanFree] at hn
          cases v <;> simp_all [equals, typeOf, deq]
      | var nm => exact ⟨.var nm, rfl, by simp [equals, typeOf]⟩
      | binaryOp op l r =>
          simp only [coreOnly, Bool.and_eq_true] at hc
          simp only [nanFree, Bool.and_eq_true] at hn
          obtain ⟨yl, hcl, hel⟩ := ih l (by simp only [size] at h; omega) hc.1 hn.1
          obtain ⟨yr, hcr, her⟩ := ih r (by simp only [size] at h; omega) hc.2 hn.2
          refine ⟨.binaryOp op yl yr, ?_, ?_⟩
          · simp [clone, hcl, hcr, bind, Except.bind]
          · simp [equals, typeOf, hel, her, bind, Except.bind]
      | unaryOp op x2 =>
          simp only [coreOnly] at hc
          simp only [nanFree] at hn
          obtain ⟨y, hcy, hey⟩ := ih x2 (by simp only [size] at h; omega) hc hn
          refine ⟨.unaryOp op y, ?_, ?_⟩
          · simp [clone, hcy, bind, Except.bind]
          · simp [equals, typeOf, hey]
      | function nm args =>
          simp only [coreOnly] at hc
          simp only [nanFree] at hn
          obtain ⟨ys, hcys, hlen, heys⟩ := cloneList_ok_of args (fun z hz =>
            ih z (by have := size_mem_le hz; simp only [size] at h; omega)
              (coreOnlyList_mem hc hz) (nanFreeList_mem hn hz))
          refine ⟨.function nm ys, ?_, ?_⟩
          · simp [clone, hcys, bind, Except.bind]
          · simp [equals, typeOf, hlen, heys]
      | matrix rows =>
          simp only [coreOnly] at hc
          simp only [nanFree] at hn
          obtain ⟨yss, hcyss, hlens, heyss⟩ := cloneRows_ok_of rows (fun r hr z hz =>
            ih z (by have := size_mem_rows_le hr hz; simp only [size] at h; omega)
              (coreOnlyList_mem (coreOnlyRows_mem hc hr) hz)
              (nanFreeList_mem (nanFreeRows_mem hn hr) hz))
          refine ⟨.matrix yss, ?_, ?_⟩
          · simp [clone, hcyss, bind, Except.bind]
          · simp [equals, typeOf, hlens, heyss]
      | tensor dims vals =>
          simp only [coreOnly] at hc
          simp only [nanFree] at hn
          obtain ⟨ys, hcys, hlen, heys⟩ := cloneList_ok_of vals (fun z hz =>
            ih z (by have := size_mem_le hz; simp only [size] at h; omega)
              (coreOnlyList_mem hc hz) (nanFreeList_mem hn hz))
          refine ⟨.tensor dims ys, ?_, ?_⟩
          · simp [clone, hcys, bind, Except.bind]
          · simp [equals, typeOf, hlen, heys]
      | boolean v => simp [coreOnly] at hc
      | string v => simp [coreOnly] at hc
      | assignment nm v => simp [coreOnly] at hc
      | block stmts => simp [coreOnly] at hc
      | ifStmt cnd t e => simp [coreOnly] at hc
      | whileStmt cnd b => simp [coreOnly] at hc
      | forStmt i cnd inc b => simp [coreOnly] at hc
      | returnStmt v => simp [coreOnly] at hc

theorem cloneAddrList_le (l : List Node)
    (hm : ∀ z ∈ l, ∀ q, q ≤ (cloneAddr z q).2) :
    ∀ p, p ≤ cloneAddrList l p := by
  induction l with
  | nil => intro p; simp [cloneAddrList]
  | cons a rest iha =>
      intro p
      have h1 := hm a (by simp) p
      have h2 := iha (fun z hz q => hm z (by simp [hz]) q) (cloneAddr a p).2
      simp only [cloneAddrList]
      omega

theorem cloneAddrRows_le (rows : List (List Node))
    (hm : ∀ r ∈ rows, ∀ z ∈ r, ∀ q, q ≤ (cloneAddr z q).2) :
    ∀ p, p ≤ cloneAddrRows rows p := by
  induction rows with
  | nil => intro p; simp [cloneAddrRows]
  | cons r rs ihr =>
      intro p
      have h1 := cloneAddrList_le r (fun z hz q => hm r (by simp) z hz q) p
      have h2 := ihr (fun s hs z hz q => hm s (by simp [hs]) z hz q) (cloneAddrList r p)
      simp only [cloneAddrRows]
      omega

theorem cloneAddr_counter_le : ∀ N (x : Node), size x ≤ N →
    ∀ p, p ≤ (cloneAddr x p).2 := by
  intro N
  induction N with
  | zero =>
      intro x h
      exact absurd h (by have := size_pos x; omega)
  | succ N ih =>
      intro x h p
      cases x with
      | binaryOp op l r =>
          have hl := ih l (by simp only [size] at h; omega) p
          have hr := ih r (by simp only [size] at h; omega) (cloneAddr l p).2
          simp only [cloneAddr]
          omega
      | unaryOp op x2 =>
          have hx := ih x2 (by simp only [size] at h; omega) p
          simp only [cloneAddr]
          omega
      | function nm args =>
          have hargs := cloneAddrList_le args (fun z hz q =>
            ih z (by have := size_mem_le hz; simp only [size] at h; omega) q) p
          simp only [cloneAddr]
          omega
      | matrix rows =>
          have hrows := cloneAddrRows_le rows (fun r hr z hz q =>
            ih z (by have := size_mem_rows_le hr hz; simp only [size] at h; omega) q) p
          simp only [cloneAddr]
          omega
      | tensor dims vals =>
          have hvals := cloneAddrList_le vals (fun z hz q =>
            ih z (by have := size_mem_le hz; simp only [size] at h; omega) q) p
          simp only [cloneAddr]
          omega
      | number v => simp [cloneAddr]
      | var nm => simp [cloneAddr]
      | boolean v => simp [cloneAddr]
      | string v => simp [cloneAddr]
      | assignment nm v => simp [cloneAddr]
      | block stmts => simp [cloneAddr]
      | ifStmt cnd t e => simp [cloneAddr]
      | whileStmt cnd b => simp [cloneAddr]
      | forStmt i cnd inc b => simp [cloneAddr]
      | returnStmt v => simp [cloneAddr]

theorem cloneAddr_root_ge (x : Node) (p : Nat) : p ≤ (cloneAddr x p).1 := by
  cases x with
  | binaryOp op l r =>
      have hl := cloneAddr_counter_le (size l) l le_rfl p
      have hr := cloneAddr_counter_le (size r) r le_rfl (cloneAddr l p).2
      simp only [cloneAddr]
      omega
  | unaryOp op x2 =>
      have hx := cloneAddr_counter_le (size x2) x2 le_rfl p
      simp only [cloneAddr]
      omega
  | function nm args =>
      have h := cloneAddrList_le args (fun z hz q =>
        cloneAddr_counter_le (size z) z le_rfl q) p
      simp only [cloneAddr]
      omega
  | matrix rows =>
      have h := cloneAddrRows_le rows (fun r hr z hz q =>
        cloneAddr_counter_le (size z) z le_rfl q) p
      simp only [cloneAddr]
      omega
  | tensor dims vals =>
      have h := cloneAddrList_le vals (fun z hz q =>
        cloneAddr_counter_le (size z) z le_rfl q) p
      simp only [cloneAddr]
      omega
  | number v => simp [cloneAddr]
  | var nm => simp [cloneAddr]
  | boolean v => simp [cloneAddr]
  | string v => simp [cloneAddr]
  | assignment nm v => simp [cloneAddr]
  | block stmts => simp [cloneAddr]
  | ifStmt cnd t e => simp [cloneAddr]
  | whileStmt cnd b => simp [cloneAddr]
  | forStmt i cnd inc b => simp [cloneAddr]
  | returnStmt v => simp [cloneAddr]

/-- C4 (amended): `clone(nullptr)` is `nullptr`; for every tree built from
the seven variants `clone` implements whose Number leaves are not NaN, the
clone succeeds and is structurally equal to the original (same variant tags,
operators and child structure), and its root is a fresh pool allocation —
its index is at least the pool counter, so it is never the object the
original (allocated earlier) is.  For Boolean, String, Assignment, Block,
If, While, For and Return nodes `clone` throws `Unknown node type in clone`
instead of copying, and a NaN-valued Number leaf makes `equals(clone(x), x)`
false because NaN compares unequal to itself. -/
theorem c4_clone_deep_copy :
    cloneOpt none = .ok none ∧
    (∀ x, coreOnly x = true → nanFree x = true →
      ∃ y, clone x = .ok y ∧ equals y x = .ok true) ∧
    (∀ x p, coreOnly x = true → p ≤ (cloneAddr x p).1) :=
  ⟨rfl,
   fun x hx hn => clone_equals_aux (size x) x le_rfl hx hn,
   fun x p _ => cloneAddr_root_ge x p⟩

/-- Counterexample to C4 as stated: `clone` does not copy a Boolean node, it
throws; and a freshly cloned NaN Number compares unequal to its original, so
`equals(clone(x), x)` is not always true even where `clone` succeeds. -/
theorem c4_counterexample :
    clone (.boolean true) = .error "Unknown node type in clone" ∧
    (clone (.number .nan) = .ok (.number .nan) ∧
     equals (.number .nan) (.number .nan) = .ok false) :=
  ⟨rfl, rfl, rfl⟩

/-- Witness for C4: cloning `BinaryOp(ADD, Number(1), Variable(x))` yields a
structurally equal copy whose root index is past the current pool counter. -/
theorem c4_witness :
    coreOnly (.binaryOp .ADD (.number (.fin 1)) (.var "x")) = true ∧
    nanFree (.binaryOp .ADD (.number (.fin 1)) (.var "x")) = true ∧
    (∃ y, clone (.binaryOp .ADD (.number (.fin 1)) (.var "x")) = .ok y ∧
      equals y (.binaryOp .ADD (.number (.fin 1)) (.var "x")) = .ok true) ∧
    5 ≤ (cloneAddr (.binaryOp .ADD (.number (.fin 1)) (.var "x")) 5).1 :=
  ⟨rfl, rfl,
   c4_clone_deep_copy.2.1 (.binaryOp .ADD (.number (.fin 1)) (.var "x")) rfl rfl,
   c4_clone_deep_copy.2.2 (.binaryOp .ADD (.number (.fin 1)) (.var "x")) 5 rfl⟩

theorem equalsList_cons_inv {x y : Node} {xs ys : List Node}
    (h : equalsList (x :: xs) (y :: ys) = .ok true) :
    equals x y = .ok true ∧ equalsList xs ys = .ok true := by
  cases hb : equals x y with
  | error e => simp [equalsList, bind, Except.bind, hb] at h
  | ok b =>
      cases b with
      | false => simp [equalsList, bind, Except.bind, hb] at h
      | true =>
          simp only [equalsList, bind, Except.bind, hb, if_true] at h
          exact ⟨rfl, h⟩

theorem equalsRows_cons_inv {r s : List Node} {rs ss : List (List Node)}
    (h : equalsRows (r :: rs) (s :: ss) = .ok true) :
    equalsList r s = .ok true ∧ equalsRows rs ss = .ok true := by
  by_cases hlen : r.length = s.length
  · cases hb : equalsList r s with
    | error e => simp [equalsRows, bind, Except.bind, hlen, hb] at h
    | ok b =>
        cases b with
        | false => simp [equalsRows, bind, Except.bind, hlen, hb] at h
        | true =>
            simp only [equalsRows, hlen, ne_eq, not_true_eq_false, if_false,
              bind, Except.bind, hb, if_true] at h
            exact ⟨rfl, h⟩
  · simp [equalsRows, hlen] at h

theorem equals_bin_inv {o1 o2 : BinaryOp} {l1 r1 l2 r2 : Node}
    (h : equals (.binaryOp o1 l1 r1) (.binaryOp o2 l2 r2) = .ok true) :
    o1 = o2 ∧ equals l1 l2 = .ok true ∧ equals r1 r2 = .ok true := by
  by_cases ho : o1 = o2
  · subst ho
    simp only [equals, typeOf, ne_eq, not_true_eq_false, if_false,
      not_false_eq_true, bind, Except.bind] at h
    cases hbl : equals l1 l2 with
    | error e => simp [hbl] at h
    | ok bl =>
        cases bl with
        | false => simp [hbl] at h
        | true =>
            simp only [hbl, if_true] at h
            exact ⟨rfl, rfl, h⟩
  · simp [equals, typeOf, ho] at h

theorem equals_un_inv {o1 o2 : UnaryOp} {x1 x2 : Node}
    (h : equals (.unaryOp o1 x1) (.unaryOp o2 x2) = .ok true) :
    o1 = o2 ∧ equals x1 x2 = .ok true := by
  by_cases ho : o1 = o2
  · subst ho
    simp only [equals, typeOf, ne_eq, not_true_eq_false, if_false] at h
    exact ⟨rfl, by simpa using h⟩
  · simp [equals, typeOf, ho] at h

theorem equals_fun_inv {n1 n2 : String} {a1 a2 : List Node}
    (h : equals (.function n1 a1) (.function n2 a2) = .ok true) :
    n1 = n2 ∧ equalsList a1 a2 = .ok true := by
  by_cases hn : n1 = n2
  · by_cases hl : a1.length = a2.length
    · subst hn
      simp only [equals, typeOf, ne_eq, not_true_eq_false, if_false, hl] at h
      exact ⟨rfl, by simpa [hl] using h⟩
    · simp [equals, typeOf, hn, hl] at h
  · simp [equals, typeOf, hn] at h

theorem equals_mat_inv {e1 e2 : List (List Node)}
    (h : equals (.matrix e1) (.matrix e2) = .ok true) :
    equalsRows e1 e2 = .ok true := by
  by_cases hl : e1.length = e2.length
  · simpa [equals, typeOf, hl] using h
  · simp [equals, typeOf, hl] at h

theorem equals_ten_inv {d1 d2 : List Nat} {v1 v2 : List Node}
    (h : equals (.tensor d1 v1) (.tensor d2 v2) = .ok true) :
    d1 = d2 ∧ equalsList v1 v2 = .ok true := by
  by_cases hd : d1 = d2
  · by_cases hl : v1.length = v2.length
    · subst hd
      exact ⟨rfl, by simpa [equals, typeOf, hl] using h⟩
    · simp [equals, typeOf, hl] at h
  · simp [equals, typeOf, hd] at h

theorem hashFoldList_congr : ∀ (xs ys : List Node),
    (∀ x ∈ xs, ∀ y, equals x y = .ok true → hash x = hash y) →
    equalsList xs ys = .ok true →
    ∀ acc, hashFoldList acc xs = hashFoldList acc ys := by
  intro xs
  induction xs with
  | nil =>
      intro ys _ h acc
      cases ys with
      | nil => rfl
      | cons y ys2 => simp [equalsList] at h
  | cons x xs2 ihx =>
      intro ys hIH h acc
      cases ys with
      | nil => simp [equalsList] at h
      | cons y ys2 =>
          obtain ⟨h1, h2⟩ := equalsList_cons_inv h
          have hx := hIH x (by simp) y h1
          simp only [hashFoldList, hx, bind, Except.bind]
          cases hh : hash y with
          | error e => simp [hh]
          | ok hv =>
              simp only [hh]
              exact ihx ys2 (fun z hz yy hyy => hIH z (by simp [hz]) yy hyy) h2 _

theorem hashFoldRows_congr : ∀ (rs ss : List (List Node)),
    (∀ r ∈ rs, ∀ x ∈ r, ∀ y, equals x y = .ok true → hash x = hash y) →
    equalsRows rs ss = .ok true →
    ∀ acc, hashFoldRows acc rs = hashFoldRows acc ss := by
  intro rs
  induction rs with
  | nil =>
      intro ss _ h acc
      cases ss with
      | nil => rfl
      | cons s ss2 => simp [equalsRows] at h
  | cons r rs2 ihr =>
      intro ss hIH h acc
      cases ss with
      | nil => simp [equalsRows] at h
      | cons s ss2 =>
          obtain ⟨h1, h2⟩ := equalsRows_cons_inv h
          have hr := hashFoldList_congr r s (fun z hz y hy => hIH r (by simp) z hz y hy) h1 acc
          simp only [hashFoldRows, hr, bind, Except.bind]
          cases hh : hashFoldList acc s with
          | error e => simp [hh]
          | ok h3 =>
              simp only [hh]
              exact ihr ss2 (fun t ht z hz y hy => hIH t (by simp [ht]) z hz y hy) h2 _

theorem equals_hash_aux : ∀ N (a : Node), size a ≤ N →
    ∀ b, equals a b = .ok true → hash a = hash b := by
  intro N
  induction N with
  | zero =>
      intro a h
      exact absurd h (by have := size_pos a; omega)
  | succ N ih =>
      intro a h b heq
      cases a with
      | number x =>
          cases b
          case number y =>
              simp [equals, typeOf] at heq
              rw [deq_true_eq heq]
          all_goals simp [equals, typeOf] at heq
      | var n1 =>
          cases b
          case var n2 =>
              have hn : n1 = n2 := by simpa [equals, typeOf] using heq
              rw [hn]
          all_goals simp [equals, typeOf] at heq
      | binaryOp o1 l1 r1 =>
          cases b
          case binaryOp o2 l2 r2 =>
              obtain ⟨ho, h1, h2⟩ := equals_bin_inv heq
              subst ho
              have hl := ih l1 (by simp only [size] at h; omega) l2 h1
              have hr := ih r1 (by simp only [size] at h; omega) r2 h2
              simp only [hash, hl, hr]
          all_goals simp [equals, typeOf] at heq
      | unaryOp o1 x1 =>
          cases b
          case unaryOp o2 x2 =>
              obtain ⟨ho, h1⟩ := equals_un_inv heq
              subst ho
              have hx := ih x1 (by simp only [size] at h; omega) x2 h1
              simp only [hash, hx]
          all_goals simp [equals, typeOf] at heq
      | function n1 a1 =>
          cases b
          case function n2 a2 =>
              obtain ⟨hn, hl⟩ := equals_fun_inv heq
              subst hn
              simp only [hash]
              exact hashFoldList_congr a1 a2
                (fun z hz y hy =>
                  ih z (by have := size_mem_le hz; simp only [size] at h; omega) y hy)
                hl _
          all_goals simp [equals, typeOf] at heq
      | matrix e1 =>
          cases b
          case matrix e2 =>
              have hrows := equals_mat_inv heq
              simp only [hash]
              exact hashFoldRows_congr e1 e2
                (fun r hr z hz y hy =>
                  ih z (by have := size_mem_rows_le hr hz; simp only [size] at h; omega) y hy)
                hrows _
          all_goals simp [equals, typeOf] at heq
      | tensor d1 v1 =>
          cases b
          case tensor d2 v2 =>
              obtain ⟨hd, hl⟩ := equals_ten_inv heq
              subst hd
              simp only [hash]
              exact hashFoldList_congr v1 v2
                (fun z hz y hy =>
                  ih z (by have := size_mem_le hz; simp only [size] at h; omega) y hy)
                hl _
          all_goals simp [equals, typeOf] at heq
      | boolean v => cases b <;> simp [equals, typeOf] at heq
      | string v => cases b <;> simp [equals, typeOf] at heq
      | assignment nm v => cases b <;> simp [equals, typeOf] at heq
      | block stmts => cases b <;> simp [equals, typeOf] at heq
      | ifStmt cnd t e => cases b <;> simp [equals, typeOf] at heq
      | whileStmt cnd bd => cases b <;> simp [equals, typeOf] at heq
      | forStmt i cnd inc bd => cases b <;> simp [equals, typeOf] at heq
      | returnStmt v => cases b <;> simp [equals, typeOf] at heq

/-- C5: structural equality implies equal structural hashes — whenever
`equals(a, b)` returns true, `hash(a)` and `hash(b)` agree (as computations,
both succeeding with the same value). -/
theorem c5_equals_implies_hash_eq :
    ∀ a b : Node, equals a b = .ok true → hash a = hash b :=
  fun a b h => equals_hash_aux (size a) a le_rfl b h

/-- Witness for C5: two syntactically different but equal Number nodes
(`2/4` and `1/2`) hash identically. -/
theorem c5_witness :
    equals (.number (.fin (2 / 4))) (.number (.fin (1 / 2))) = .ok true ∧
    hash (.number (.fin (2 / 4))) = hash (.number (.fin (1 / 2))) := by
  have h : equals (.number (.fin (2 / 4))) (.number (.fin (1 / 2))) = .ok true := by
    simp [equals, typeOf, deq]
    norm_num
  exact ⟨h, c5_equals_implies_hash_eq _ _ h⟩

end Numu
